import Mathlib

/-!
# myFileTransferApp: a shallow embedding of `myFTserver.c` and `myFTclient.c`

Conventions of the embedding.

* A C `char` is a Lean `Char`; a C string is the `List Char` of its bytes before
  the terminating NUL; a byte buffer is a `List Char` that may contain NUL.
* Heap allocation (`malloc`, `strdup`, `strndup`) always succeeds: strings are
  Lean lists.
* Every system call outcome is an input of the embedding: a `RecvResult` for each
  `recv`, an `Option Nat` for each `send` and `write` (`none` is the return value
  `-1`, `some n` means that up to `n` bytes are accepted by the call).
* What a procedure does to the outside is returned as data: the bytes handed to
  a connection, the content of a file, the list of `Event`s of a session.
-/

namespace MyFT

/-! ## Constants of the two headers -/

/-- `BUFFER_SIZE` of `myFTserver.h` and `myFTclient.h`. -/
def BUFFER_SIZE : Nat := 1024

/-- `PATH_MAX` of `myFTserver.h`. -/
def PATH_MAX : Nat := 4096

/-- The terminator byte of a C string. -/
def NUL : Char := Char.ofNat 0

/-- The string denoted by a byte buffer: its bytes before the first NUL. -/
def c_string : List Char → List Char
  | [] => []
  | c :: cs => if c = NUL then [] else c :: c_string cs

/-- `strncpy(dst, src, n)` into a fresh buffer of `n` bytes, `src` being a NUL
terminated buffer: the bytes of `src` up to its first NUL, then NUL padding. -/
def strncpy : List Char → Nat → List Char
  | _, 0 => []
  | [], n + 1 => List.replicate (n + 1) NUL
  | c :: cs, n + 1 => if c = NUL then List.replicate (n + 1) NUL else c :: strncpy cs n

/-! ## Sockets -/

/-- Outcome of one `recv` call, before the buffer capacity is applied:
`bytes bs` are the bytes the connection has ready (`bytes []` is the orderly
shutdown of the peer, return value `0`), `error` is the return value `-1`. -/
inductive RecvResult
  | bytes (bs : List Char)
  | error
  deriving DecidableEq

/-- Bytes stored in the buffer by `recv(sock, buf, cap, 0)`. -/
def RecvResult.data (cap : Nat) : RecvResult → List Char
  | .bytes bs => bs.take cap
  | .error => []

/-- Return value of `recv(sock, buf, cap, 0)`. -/
def RecvResult.count (cap : Nat) : RecvResult → Int
  | .bytes bs => ((bs.take cap).length : Int)
  | .error => -1

/-! ## Server: path message and path resolution -/

namespace Server

/-- The index `i` reached by `while (buffer[i] == 0 && i < receive) i++` of
`receive_path`, `buffer` holding the received bytes followed by a NUL. -/
def leading_zeros : List Char → Nat
  | [] => 0
  | c :: cs => if c = NUL then leading_zeros cs + 1 else 0

/-- `receive_path` (myFTserver.c 260-306): one `recv` of at most
`BUFFER_SIZE - 1` bytes; `none` is the `NULL` returned on disconnect or error;
otherwise the content of the returned buffer of `receive + 1` bytes (which is
read as a C string by the caller). -/
def receive_path (r : RecvResult) : Option (List Char) :=
  let receive := r.count (BUFFER_SIZE - 1)
  if 0 < receive then
    let buffer := r.data (BUFFER_SIZE - 1) ++ [NUL]
    let i := leading_zeros (r.data (BUFFER_SIZE - 1))
    let buffer := buffer.drop i
    let receive := receive.toNat - i
    some (strncpy buffer (receive + 1))
  else
    none

/-- Result of `construct_full_path`. -/
inductive PathResult
  /-- The value `NULL`. -/
  | null
  /-- The index `root_len - 1` is outside `root_directory` (empty root): the
  read has no defined result. -/
  | out_of_bounds
  /-- The newly built string. -/
  | path (p : List Char)
  deriving DecidableEq

/-- The loop `while (relative_path[0] == '/') memmove(...)` of
`construct_full_path`: one leading separator is removed per iteration. -/
def strip_leading_slashes : List Char → List Char
  | [] => []
  | c :: cs => if c = '/' then strip_leading_slashes cs else c :: cs

/-- `construct_full_path` (myFTserver.c 319-357); `none` is a `NULL` argument. -/
def construct_full_path (root_directory relative_path : Option (List Char)) : PathResult :=
  match root_directory, relative_path with
  | none, _ => .null
  | some _, none => .null
  | some root, some relative =>
    match root.getLast? with
    | none => .out_of_bounds
    | some last =>
      let full_path := if last ≠ '/' then root ++ ['/'] else root
      .path (full_path ++ strip_leading_slashes relative)

/-! ## Server: the session -/

/-- What a session does to the outside, in order. -/
inductive Event
  /-- A call of `send(cli->sockfd, &c, 1, 0)`. -/
  | send_byte (c : Char)
  /-- A call of `pthread_mutex_lock(&clients_mutex)` made by `handle_client` itself. -/
  | mutex_lock
  /-- A call of `pthread_mutex_unlock(&clients_mutex)` made by `handle_client` itself. -/
  | mutex_unlock
  /-- A call of `handle_write(cli, fullpath)`. -/
  | handle_write (fullpath : List Char)
  /-- A call of `handle_read(cli, fullpath)`. -/
  | handle_read (fullpath : List Char)
  /-- A call of `handle_list(cli, fullpath)`. -/
  | handle_list (fullpath : List Char)
  /-- The `default` branch of the dispatch: the diagnostic on standard error. -/
  | invalid_operation (opz : Char)
  /-- A call of `close(cli->sockfd)`. -/
  | close_socket
  /-- A call of `remove_client(cli->uid)`. -/
  | remove_client (uid : Int)
  /-- The session went through the out-of-bounds read of `construct_full_path`;
  nothing is known of what follows. -/
  | undefined_read
  deriving DecidableEq

/-- Whether an event is the call of one of the three handlers. -/
def Event.is_handler : Event → Bool
  | .handle_write _ => true
  | .handle_read _ => true
  | .handle_list _ => true
  | _ => false

/-- Inputs of one session. -/
structure SessionEnv where
  /-- The field `cli->uid`. -/
  uid : Int
  /-- The field `data->ft_root_directory` (`NULL` when the server got no `-d`). -/
  ft_root_directory : Option (List Char)
  /-- Outcome of the `recv` of the operation byte. -/
  op_recv : RecvResult
  /-- Outcome of the `recv` of `receive_path`. -/
  path_recv : RecvResult
  /-- Return value of the `send` of the confirmation byte. -/
  confirm_send : Int

/-- The `switch (opz)` of `handle_client`. -/
def dispatch (opz : Char) (fullpath : List Char) : Event :=
  if opz = 'w' then .handle_write fullpath
  else if opz = 'r' then .handle_read fullpath
  else if opz = 'l' then .handle_list fullpath
  else .invalid_operation opz

/-- The label `cleanup:` of `handle_client`. -/
def cleanup (e : SessionEnv) : List Event :=
  [.close_socket, .remove_client e.uid]

/-- `handle_client` (myFTserver.c 490-557): the events of the session. -/
def handle_client (e : SessionEnv) : List Event :=
  if e.op_recv.count 1 ≤ 0 then cleanup e
  else
    let opz := (e.op_recv.data 1).headD NUL
    match receive_path e.path_recv with
    | none => cleanup e
    | some buf =>
      let relative_path := c_string buf
      Event.send_byte 'T' ::
        (if e.confirm_send ≤ 0 then cleanup e
         else
          match construct_full_path e.ft_root_directory (some relative_path) with
          | .null => cleanup e
          | .out_of_bounds => [Event.undefined_read]
          | .path fullpath =>
            [Event.mutex_lock, dispatch opz fullpath, Event.mutex_unlock] ++ cleanup e)

/-! ## Server: splitting a path, creating directories -/

/-- `strrchr(s, c)` for a byte `c` other than NUL: the index of the last
occurrence of `c` in `s`, `none` for the `NULL` result. -/
def strrchr : List Char → Char → Option Nat
  | [], _ => none
  | x :: xs, c =>
    match strrchr xs c with
    | some i => some (i + 1)
    | none => if x = c then some 0 else none

/-- `strtok(s, "/")` called until it returns `NULL`: the maximal non-empty runs
of bytes other than the separator, in order; `acc` is the run being read. -/
def strtok_from : List Char → List Char → List (List Char)
  | acc, [] => if acc = [] then [] else [acc]
  | acc, c :: cs =>
    if c = '/' then (if acc = [] then strtok_from [] cs else acc :: strtok_from [] cs)
    else strtok_from (acc ++ [c]) cs

/-- All the tokens `strtok` yields for a path. -/
def strtok_all (s : List Char) : List (List Char) := strtok_from [] s

/-- What a path names in the file system. -/
inductive Kind
  | file
  | dir
  deriving DecidableEq

/-- A resolved path: whether it starts at the root directory or at the working
directory, and its components. -/
structure FPath where
  absolute : Bool
  segs : List (List Char)
  deriving DecidableEq

/-- The file system as `stat` and `mkdir` see it: a map from resolved paths to
the kind of the entry. The two starting directories (no component) always
exist and are not stored in the map; components are compared as written (`.`
and `..` are names like any other). -/
abbrev FS := FPath → Option Kind

/-- Path resolution of the operating system: a leading separator makes the path
absolute, repeated and trailing separators are ignored. -/
def resolve (s : List Char) : FPath :=
  ⟨decide (s.head? = some '/'), strtok_all s⟩

/-- The entry at a resolved path. -/
def FS.lookup (fs : FS) (p : FPath) : Option Kind :=
  if p.segs = [] then some Kind.dir else fs p

/-- `stat(path, &statbuf)`: `none` when the call fails (no such entry),
otherwise the kind read through `S_ISDIR`. -/
def FS.stat (fs : FS) (path : List Char) : Option Kind :=
  fs.lookup (resolve path)

/-- `mkdir(path, 0777)`: succeeds exactly when the parent is a directory and the
name is absent, and then adds the directory; `none` is the return value `-1`. -/
def FS.mkdir (fs : FS) (path : List Char) : Option FS :=
  let p := resolve path
  if fs.lookup ⟨p.absolute, p.segs.dropLast⟩ = some Kind.dir ∧ fs.lookup p = none then
    some (fun q => if q = p then some Kind.dir else fs q)
  else
    none

/-- The `while (path_part != NULL)` loop of `ensure_directory_exists`, over the
remaining tokens; `none` when a `strcat` would write past `current_path`
(`PATH_MAX` bytes), otherwise the return value and the file system. -/
def ensure_loop : FS → List Char → List (List Char) → Option (Int × FS)
  | fs, _, [] => some (1, fs)
  | fs, current_path, path_part :: rest =>
    let current_path := current_path ++ path_part ++ ['/']
    if PATH_MAX ≤ current_path.length then none
    else
      match fs.stat current_path with
      | none =>
        match fs.mkdir current_path with
        | none => some (0, fs)
        | some fs1 => ensure_loop fs1 current_path rest
      | some k =>
        if k = Kind.dir then ensure_loop fs current_path rest
        else some (0, fs)

/-- `ensure_directory_exists` (myFTserver.c 209-251). -/
def ensure_directory_exists (fs : FS) (dirpath : List Char) : Option (Int × FS) :=
  let current_path := if dirpath.head? = some '/' then ['/'] else []
  ensure_loop fs current_path (strtok_all dirpath)

/-- `divide_dirpath_from_filename` (myFTserver.c 189-200): the pair
`(*dirpath, *filename)`. -/
def divide_dirpath_from_filename (path : List Char) : List Char × List Char :=
  match strrchr path '/' with
  | some last_slash => (path.take last_slash, path.drop (last_slash + 1))
  | none => ([], path)

/-! ## Transfer engine -/

/-- How `write_file_in_dir` ended. -/
inductive WriteStatus
  /-- `open` failed. -/
  | open_failed
  /-- `available_bytes` returned 0. -/
  | space_unknown
  /-- The branch `bytes_on_device < 0`. -/
  | out_of_space
  /-- `write` returned a negative value. -/
  | write_failed
  /-- `recv` returned a negative value. -/
  | recv_failed
  /-- `recv` returned 0. -/
  | finished
  deriving DecidableEq

/-- Inputs of one run of `write_file_in_dir`. -/
structure WriteEnv where
  /-- Content of the destination before the call (`none`: no such file). -/
  old : Option (List Char)
  /-- Whether `open(path, O_WRONLY | O_CREAT | O_TRUNC, 0644)` succeeds. -/
  open_ok : Bool
  /-- The value returned by `available_bytes(path)`. -/
  avail : Nat
  /-- Outcomes of the successive `recv` calls; after them the peer has closed. -/
  recvs : List RecvResult
  /-- Outcome of the `k`-th `write` call. -/
  writes : Nat → Option Nat

/-- Effects of one run of `write_file_in_dir`. -/
structure WriteResult where
  status : WriteStatus
  /-- Content of the destination after the call. -/
  file : Option (List Char)
  /-- Outcomes of `recvs` that no `recv` call consumed. -/
  unread : List RecvResult

/-- The receive loop of `write_file_in_dir`; `bytes_on_device` is an
`unsigned long long`, `k` counts the `write` calls, `content` is the file. -/
def write_loop (writes : Nat → Option Nat) :
    List RecvResult → Nat → Nat → List Char → WriteResult
  | [], _, _, content => ⟨.finished, some content, []⟩
  | r :: rs, bytes_on_device, k, content =>
    let bytes_received := r.count BUFFER_SIZE
    if 0 < bytes_received then
      let bytes_on_device := (bytes_on_device + 2 ^ 64 - bytes_received.toNat % 2 ^ 64) % 2 ^ 64
      if bytes_on_device < 0 then ⟨.out_of_space, some content, rs⟩
      else
        match writes k with
        | none => ⟨.write_failed, some content, rs⟩
        | some n =>
          write_loop writes rs bytes_on_device (k + 1) (content ++ (r.data BUFFER_SIZE).take n)
    else if bytes_received < 0 then ⟨.recv_failed, some content, rs⟩
    else ⟨.finished, some content, rs⟩

/-- `write_file_in_dir` (myFTserver.c 127-179). -/
def write_file_in_dir (e : WriteEnv) : WriteResult :=
  if e.open_ok = false then ⟨.open_failed, e.old, e.recvs⟩
  else if e.avail = 0 then ⟨.space_unknown, some [], e.recvs⟩
  else write_loop e.writes e.recvs e.avail 0 []

/-- How `send_data` ended. -/
inductive SendStatus
  /-- `send` returned a negative value. -/
  | send_failed
  /-- `read` returned 0: the whole file was read. -/
  | finished
  deriving DecidableEq

/-- Effects of one run of `send_data`. -/
structure SendResult where
  status : SendStatus
  /-- The bytes the connection accepted, in order. -/
  sent : List Char
  deriving DecidableEq

/-- The two nested loops of `send_data` (myFTserver.c 90-111) as one machine:
`pending` is `buffer[total_sent .. bytes_read)`, `file` the part of the file not
yet read, `k` counts the `send` calls; each step is one loop test. `none` when
the steps allowed by `fuel` do not reach the end. -/
def send_data_loop (sends : Nat → Option Nat) :
    Nat → Nat → List Char → List Char → List Char → Option SendResult
  | 0, _, _, _, _ => none
  | fuel + 1, k, pending, file, sent =>
    if 0 < pending.length then
      match sends k with
      | none => some ⟨.send_failed, sent⟩
      | some n => send_data_loop sends fuel (k + 1) (pending.drop n) file (sent ++ pending.take n)
    else
      let buffer := file.take BUFFER_SIZE
      if 0 < buffer.length then send_data_loop sends fuel k buffer (file.drop BUFFER_SIZE) sent
      else some ⟨.finished, sent⟩

/-- `send_data` (myFTserver.c 84-118) on a file of the given content. -/
def send_data (sends : Nat → Option Nat) (fuel : Nat) (file : List Char) : Option SendResult :=
  send_data_loop sends fuel 0 [] file []

end Server

/-! ## Client -/

namespace Client

/-- `send_filepath` (myFTclient.c 181-199): the bytes handed to `send`; `none`
when `strlen(path) + 6` exceeds the buffer, which the call would read past. -/
def send_filepath (path : List Char) : Option (List Char) :=
  let buffer := List.replicate 5 NUL ++ strncpy (path ++ [NUL]) (BUFFER_SIZE - 6) ++ [NUL]
  if path.length + 6 ≤ BUFFER_SIZE then some (buffer.take (path.length + 6))
  else none

/-- `divide_dirpath_from_filename` (myFTclient.c 96-122): the pair
`(*first_part, *second_part)`. -/
def divide_dirpath_from_filename (input : List Char) : List Char × List Char :=
  match Server.strrchr input '/' with
  | none => (['.'], input)
  | some last_occurrence =>
    let first_part_length := last_occurrence
    (input.take first_part_length, input.drop (last_occurrence + 1))

/-- The receive loop of `write_file_in_dir` (myFTclient.c 60-77). -/
def write_loop (writes : Nat → Option Nat) :
    List RecvResult → Nat → Nat → List Char → Server.WriteResult
  | [], _, _, content => ⟨.finished, some content, []⟩
  | r :: rs, bytes_on_device, k, content =>
    let bytes_received := r.count BUFFER_SIZE
    if 0 < bytes_received then
      let bytes_on_device := (bytes_on_device + 2 ^ 64 - bytes_received.toNat % 2 ^ 64) % 2 ^ 64
      if bytes_on_device < 0 then ⟨.out_of_space, some content, rs⟩
      else
        match writes k with
        | none => ⟨.write_failed, some content, rs⟩
        | some n =>
          write_loop writes rs bytes_on_device (k + 1) (content ++ (r.data BUFFER_SIZE).take n)
    else if bytes_received < 0 then ⟨.recv_failed, some content, rs⟩
    else ⟨.finished, some content, rs⟩

/-- `write_file_in_dir` (myFTclient.c 31-85). -/
def write_file_in_dir (e : Server.WriteEnv) : Server.WriteResult :=
  if e.open_ok = false then ⟨.open_failed, e.old, e.recvs⟩
  else if e.avail = 0 then ⟨.space_unknown, some [], e.recvs⟩
  else write_loop e.writes e.recvs e.avail 0 []

/-- The loop of `send_data` (myFTclient.c 215-223): one `send` per chunk read,
whose count is not looked at; `k` counts the `send` calls, `file` is the part
of the file not yet read. `none` when `fuel` iterations do not reach the end. -/
def send_data_loop (sends : Nat → Option Nat) :
    Nat → Nat → List Char → List Char → Option Server.SendResult
  | 0, _, _, _ => none
  | fuel + 1, k, file, sent =>
    let buffer := file.take BUFFER_SIZE
    if 0 < buffer.length then
      match sends k with
      | none => some ⟨.send_failed, sent⟩
      | some n => send_data_loop sends fuel (k + 1) (file.drop BUFFER_SIZE) (sent ++ buffer.take n)
    else some ⟨.finished, sent⟩

/-- `send_data` (myFTclient.c 209-231) on a file of the given content. -/
def send_data (sends : Nat → Option Nat) (fuel : Nat) (file : List Char) :
    Option Server.SendResult :=
  send_data_loop sends fuel 0 file []

end Client

/-! ## Free space -/

/-- `available_bytes` (myFTserver.c 15-27, myFTclient.c 11-23): `statvfs` fails
(`none`) or gives `f_bavail` and `f_frsize`, whose product is taken in 64
bits. -/
def available_bytes (statvfs : Option (Nat × Nat)) : Nat :=
  match statvfs with
  | none => 0
  | some (f_bavail, f_frsize) => (f_bavail * f_frsize) % 2 ^ 64

/-! ## Server: the handlers and the registry -/

namespace Server

/-- `mkdir(path, 0777)` that may also fail for a reason outside the map
(permissions, quota), as `denied` says for the resolved path. -/
def FS.mkdir_env (denied : FPath → Bool) (fs : FS) (path : List Char) : Option FS :=
  if denied (resolve path) = true then none else fs.mkdir path

/-- The loop of `ensure_directory_exists` with the `mkdir` of `FS.mkdir_env`. -/
def ensure_loop_env (denied : FPath → Bool) :
    FS → List Char → List (List Char) → Option (Int × FS)
  | fs, _, [] => some (1, fs)
  | fs, current_path, path_part :: rest =>
    let current_path := current_path ++ path_part ++ ['/']
    if PATH_MAX ≤ current_path.length then none
    else
      match fs.stat current_path with
      | none =>
        match fs.mkdir_env denied current_path with
        | none => some (0, fs)
        | some fs1 => ensure_loop_env denied fs1 current_path rest
      | some k =>
        if k = Kind.dir then ensure_loop_env denied fs current_path rest
        else some (0, fs)

/-- `ensure_directory_exists` (myFTserver.c 209-251) with the `mkdir` of
`FS.mkdir_env`. -/
def ensure_directory_exists_env (denied : FPath → Bool) (fs : FS) (dirpath : List Char) :
    Option (Int × FS) :=
  let current_path := if dirpath.head? = some '/' then ['/'] else []
  ensure_loop_env denied fs current_path (strtok_all dirpath)

/-- The directories and regular files of the server with the content of the
files. -/
structure Disk where
  fs : FS
  content : FPath → List Char

/-- Inputs of a transfer into a file that the disk does not determine. -/
structure TransferIO where
  /-- Whether `open` fails for a reason outside the map. -/
  open_denied : Bool
  /-- The value returned by `available_bytes(path)`. -/
  avail : Nat
  /-- Outcomes of the successive `recv` calls; after them the peer has closed. -/
  recvs : List RecvResult
  /-- Outcome of the `k`-th `write` call. -/
  writes : Nat → Option Nat

/-- Whether the map allows `open(path, O_WRONLY | O_CREAT | O_TRUNC, 0644)`: the
parent is a directory and the name is absent or a regular file. -/
def FS.can_create (fs : FS) (path : List Char) : Bool :=
  let p := resolve path
  decide (p.segs ≠ [] ∧ fs.lookup ⟨p.absolute, p.segs.dropLast⟩ = some Kind.dir ∧
    fs.lookup p ≠ some Kind.dir)

/-- `write_file_in_dir(path, client_sock)` on the disk: the file at `path` is the
one opened, truncated and written. -/
def write_file_at (d : Disk) (path : List Char) (io : TransferIO) : Disk × WriteResult :=
  let p := resolve path
  let old := if d.fs.lookup p = some Kind.file then some (d.content p) else none
  let open_ok := !io.open_denied && d.fs.can_create path
  let r := write_file_in_dir ⟨old, open_ok, io.avail, io.recvs, io.writes⟩
  if open_ok = true then
    (⟨fun q => if q = p then some Kind.file else d.fs q,
      fun q => if q = p then r.file.getD [] else d.content q⟩, r)
  else (d, r)

/-- `handle_write` (myFTserver.c 388-406): the disk afterwards and the run of
`write_file_in_dir`, if it was called; `none` as for `ensure_loop`. The `mkdir`
calls are those of `FS.mkdir_env` (`denied` constantly false: those of
`FS.mkdir`). -/
def handle_write (denied : FPath → Bool) (d : Disk) (fullpath : List Char) (io : TransferIO) :
    Option (Disk × Option WriteResult) :=
  let dirpath := (divide_dirpath_from_filename fullpath).1
  match ensure_directory_exists_env denied d.fs dirpath with
  | none => none
  | some (is_dir, fs1) =>
    if is_dir ≠ 0 then
      let w := write_file_at ⟨fs1, d.content⟩ fullpath io
      some (w.1, some w.2)
    else some (⟨fs1, d.content⟩, none)

/-- How `handle_list` ended. -/
inductive RelayStatus
  /-- `popen` returned `NULL`. -/
  | popen_failed
  /-- `send` returned a negative value. -/
  | send_failed
  /-- `fgets` returned `NULL`: the output is exhausted. -/
  | finished
  deriving DecidableEq

/-- Effects of one run of `handle_list`. -/
structure RelayResult where
  status : RelayStatus
  /-- The bytes the connection accepted, in order. -/
  sent : List Char
  deriving DecidableEq

/-- The `while (fgets(...) != NULL)` loop of `handle_list`: `lines` are the
strings `fgets` stores in `result` one after the other, each sent with one
`send` of `strlen(result)` bytes; `k` counts the `send` calls. -/
def handle_list_loop (sends : Nat → Option Nat) :
    List (List Char) → Nat → List Char → RelayResult
  | [], _, sent => ⟨.finished, sent⟩
  | result :: rest, k, sent =>
    match sends k with
    | none => ⟨.send_failed, sent⟩
    | some n => handle_list_loop sends rest (k + 1) (sent ++ result.take n)

/-- `handle_list` (myFTserver.c 441-474) on the output of the listing command. -/
def handle_list (popen_ok : Bool) (lines : List (List Char)) (sends : Nat → Option Nat) :
    RelayResult :=
  if popen_ok = false then ⟨.popen_failed, []⟩
  else handle_list_loop sends lines 0 []

/-- `MAX_CLIENTS` of `myFTserver.h`. -/
def MAX_CLIENTS : Nat := 10

/-- `client_t` of `myFTserver.h`. -/
structure client_t where
  address : Nat
  sockfd : Int
  uid : Int
  deriving DecidableEq

/-- The array `clients[MAX_CLIENTS]`; `none` is a `NULL` slot. -/
abbrev Registry := Fin MAX_CLIENTS → Option client_t

/-- The `for` loop of `add_client` from index `i`, `fuel` bounding the
iterations left. -/
def add_client_loop (cl : client_t) : Nat → Nat → Registry → Registry
  | 0, _, clients => clients
  | fuel + 1, i, clients =>
    if h : i < MAX_CLIENTS then
      if (clients ⟨i, h⟩).isNone = true then Function.update clients ⟨i, h⟩ (some cl)
      else add_client_loop cl fuel (i + 1) clients
    else clients

/-- `add_client` (myFTserver.c 33-47), between the lock and the unlock. -/
def add_client (clients : Registry) (cl : client_t) : Registry :=
  add_client_loop cl MAX_CLIENTS 0 clients

end Server

/-! ## Client: confirmation wait and listing -/

namespace Client

/-- How the wait for the confirmation ended. -/
inductive WaitResult
  /-- The `break`: `'T'` was read; `rest` are the bytes not yet read. -/
  | proceed (rest : List Char)
  /-- A `recv` returned 0 or -1: `exit(EXIT_FAILURE)`. -/
  | exit_failure
  deriving DecidableEq

/-- The `while (1)` loop of `main` (myFTclient.c 465-479): each `recv` of one
byte takes the next byte of `stream`, the bytes still to arrive; once they are
exhausted the `recv` returns 0 or -1. -/
def await_confirmation : List Char → WaitResult
  | [] => .exit_failure
  | server_response :: rest =>
    if server_response = 'T' then .proceed rest else await_confirmation rest

/-- The string `error_message` of `list_mode`. -/
def error_message : List Char := "ls: cannot access".toList

/-- How `list_mode` ended. -/
inductive ListStatus
  /-- The first 17 bytes of `buffer` were `error_message`. -/
  | invalid_path
  /-- `write` returned a negative value. -/
  | write_failed
  /-- `recv` returned a negative value. -/
  | recv_failed
  /-- `recv` returned 0. -/
  | finished
  deriving DecidableEq

/-- Effects of one run of `list_mode`. -/
structure ListResult where
  status : ListStatus
  /-- The bytes written to standard output, in order. -/
  stdout : List Char
  deriving DecidableEq

/-- The receive loop of `list_mode` (myFTclient.c 311-325): `buffer` keeps its
bytes from one `recv` to the next, a `recv` overwrites its first
`bytes_received` bytes; `k` counts the `write` calls. -/
def list_mode_loop (writes : Nat → Option Nat) :
    List RecvResult → List Char → Nat → List Char → ListResult
  | [], _, _, out => ⟨.finished, out⟩
  | r :: rs, buffer, k, out =>
    let bytes_received := r.count BUFFER_SIZE
    if 0 < bytes_received then
      let buffer := r.data BUFFER_SIZE ++ buffer.drop (r.data BUFFER_SIZE).length
      let buffer_errore := strncpy buffer 17 ++ [NUL]
      if c_string buffer_errore = error_message then ⟨.invalid_path, out⟩
      else
        match writes k with
        | none => ⟨.write_failed, out⟩
        | some n => list_mode_loop writes rs buffer (k + 1) (out ++ (r.data BUFFER_SIZE).take n)
    else if bytes_received < 0 then ⟨.recv_failed, out⟩
    else ⟨.finished, out⟩

/-- `list_mode` (myFTclient.c 302-331); `stack` is what the `BUFFER_SIZE` bytes
of `buffer` hold when the function is entered. -/
def list_mode (stack : List Char) (writes : Nat → Option Nat) (recvs : List RecvResult) :
    ListResult :=
  list_mode_loop writes recvs stack 0 []

end Client

/-! ## Server: removing a client, the accept loop -/

namespace Server

/-- The `for` loop of `remove_client` from index `i`, `fuel` bounding the
iterations left. -/
def remove_client_loop (uid : Int) : Nat → Nat → Registry → Registry
  | 0, _, clients => clients
  | fuel + 1, i, clients =>
    if h : i < MAX_CLIENTS then
      match clients ⟨i, h⟩ with
      | some c =>
        if c.uid = uid then Function.update clients ⟨i, h⟩ none
        else remove_client_loop uid fuel (i + 1) clients
      | none => remove_client_loop uid fuel (i + 1) clients
    else clients

/-- `remove_client` (myFTserver.c 55-72), between the lock and the unlock. -/
def remove_client (clients : Registry) (uid : Int) : Registry :=
  remove_client_loop uid MAX_CLIENTS 0 clients

/-- The largest value of the `int` `uid_counter`. -/
def INT_MAX : Int := 2147483647

/-- The globals `clients` and `uid_counter`, and the uids assigned so far, the
most recent first (a record kept for the statements, not a variable of the
program). -/
structure ServerState where
  clients : Registry
  uid_counter : Int
  assigned : List Int

/-- The globals when `main` starts: every slot `NULL`, `uid_counter = 10`. -/
def initial_state : ServerState := ⟨fun _ => none, 10, []⟩

/-- One pass of the accept loop of `main` (myFTserver.c 658-668):
`uid = uid_counter++` then `add_client`; `none` when the increment of the `int`
counter would overflow. -/
def accept_client (s : ServerState) (address : Nat) (sockfd : Int) : Option ServerState :=
  if s.uid_counter < INT_MAX then
    some ⟨add_client s.clients ⟨address, sockfd, s.uid_counter⟩, s.uid_counter + 1,
      s.uid_counter :: s.assigned⟩
  else none

/-- A step that changes the registry: an accepted connection or the
`remove_client` of a session that ends. -/
inductive RegistryStep
  | accept (address : Nat) (sockfd : Int)
  | remove (uid : Int)

/-- The effect of one step. -/
def registry_step (s : ServerState) : RegistryStep → Option ServerState
  | .accept address sockfd => accept_client s address sockfd
  | .remove uid => some ⟨remove_client s.clients uid, s.uid_counter, s.assigned⟩

/-- The effect of a sequence of steps, in order. -/
def run_steps : List RegistryStep → ServerState → Option ServerState
  | [], s => some s
  | st :: rest, s =>
    match registry_step s st with
    | none => none
    | some s1 => run_steps rest s1

end Server

/-! ## Vocabulary of the statements -/

/-- A `send` or `write` call that takes a whole request of at most `BUFFER_SIZE`
bytes. -/
def complete : Option Nat → Bool
  | some n => decide (BUFFER_SIZE ≤ n)
  | none => false

/-- A `send` call that fails not and takes at least one byte. -/
def progresses : Option Nat → Bool
  | some n => decide (1 ≤ n)
  | none => false

/-- One way a byte stream reaches successive `recv` calls on a buffer of
`BUFFER_SIZE` bytes: non-empty chunks of at most that size, in order. -/
def chunking (chunks : List (List Char)) (stream : List Char) : Prop :=
  chunks.flatten = stream ∧ ∀ c ∈ chunks, c ≠ [] ∧ c.length ≤ BUFFER_SIZE

/-- The chunks stored by the `recv` calls that come before the first one
returning 0 or a negative value. -/
def received_chunks : List RecvResult → List (List Char)
  | [] => []
  | r :: rs => if 0 < r.count BUFFER_SIZE then r.data BUFFER_SIZE :: received_chunks rs else []

/-- The path `current_path` holds once the given tokens have been appended. -/
def path_of_tokens (absolute : Bool) (toks : List (List Char)) : List Char :=
  (if absolute = true then ['/'] else []) ++ (toks.map (fun t => t ++ ['/'])).flatten

/-- What stops the loop of `ensure_directory_exists` at a segment: it exists
and is not a directory, or it is absent and its creation is refused. -/
def Server.blocked (denied : Server.FPath → Bool) (fs : Server.FS) (seg : Server.FPath) : Prop :=
  fs.lookup seg = some Server.Kind.file ∨ (fs.lookup seg = none ∧ denied seg = true)

/-- What the client is said to print in `list_mode`: the chunks that come before
the first chunk whose own first 17 bytes are the error message. -/
def listed_before_error : List (List Char) → List Char
  | [] => []
  | c :: cs => if c.take 17 = Client.error_message then [] else c ++ listed_before_error cs

/-- No two occupied slots hold entries with the same uid. -/
def Server.distinct_uids (clients : Server.Registry) : Prop :=
  ∀ i j ci cj, clients i = some ci → clients j = some cj → ci.uid = cj.uid → i = j

/-- Whether every handler call of a sequence of events is made while the mutex
locked by `handle_client` itself is free; `held` says whether it is held when
the sequence starts. -/
def Server.handlers_outside_lock : Bool → List Server.Event → Bool
  | _, [] => true
  | _, .mutex_lock :: rest => Server.handlers_outside_lock true rest
  | _, .mutex_unlock :: rest => Server.handlers_outside_lock false rest
  | held, ev :: rest =>
    (if ev.is_handler = true then !held else true) && Server.handlers_outside_lock held rest

/-- Whether every handler call of a sequence of events is made while the mutex
locked by `handle_client` itself is held, and every call of `remove_client`
(which locks the mutex itself) while it is free. -/
def Server.handlers_inside_lock : Bool → List Server.Event → Bool
  | _, [] => true
  | _, .mutex_lock :: rest => Server.handlers_inside_lock true rest
  | _, .mutex_unlock :: rest => Server.handlers_inside_lock false rest
  | held, .remove_client _ :: rest => !held && Server.handlers_inside_lock held rest
  | held, ev :: rest =>
    (if ev.is_handler = true then held else true) && Server.handlers_inside_lock held rest

/-- The invariant of the registry: no two occupied slots share a uid, every uid
in the registry and every uid assigned is below `uid_counter`, and the uids
were assigned in strictly increasing order (`assigned` has the most recent
first). -/
def Server.registry_invariant (s : Server.ServerState) : Prop :=
  Server.distinct_uids s.clients ∧
  (∀ (i : Fin Server.MAX_CLIENTS) c, s.clients i = some c → c.uid < s.uid_counter) ∧
  s.assigned.Pairwise (fun later earlier => earlier < later) ∧
  (∀ u ∈ s.assigned, u < s.uid_counter)

/-! ## Lemmas on the session -/

namespace Server

theorem receive_path_eq_none (r : RecvResult) (h : ¬ 0 < r.count (BUFFER_SIZE - 1)) :
    receive_path r = none := by
  simp [receive_path, h]

theorem receive_path_isSome (r : RecvResult) (h : 0 < r.count (BUFFER_SIZE - 1)) :
    ∃ buf, receive_path r = some buf := by
  simp [receive_path, h]

theorem dispatch_ne_send (opz : Char) (p : List Char) (c : Char) :
    dispatch opz p ≠ Event.send_byte c := by
  unfold dispatch
  split_ifs <;> simp

theorem dispatch_invalid (opz : Char) (p : List Char)
    (hw : opz ≠ 'w') (hr : opz ≠ 'r') (hl : opz ≠ 'l') :
    dispatch opz p = Event.invalid_operation opz := by
  simp [dispatch, hw, hr, hl]

theorem confirm_not_mem_cleanup (e : SessionEnv) (c : Char) :
    Event.send_byte c ∉ cleanup e := by
  simp [cleanup]

theorem cleanup_no_handler (e : SessionEnv) :
    ∀ ev ∈ cleanup e, ev.is_handler = false := by
  simp [cleanup, Event.is_handler]

/-! ## The confirmation byte -/

/-- C1: in every session the call that sends the confirmation byte `'T'` is made
if and only if the receive of the operation byte returned a byte and the receive
of the path returned a positive count; when the peer closes right after the
operation byte (the path receive returns 0) no `'T'` is sent and no handler is
called. -/
theorem handle_client_confirmation_iff (e : SessionEnv) :
    (Event.send_byte 'T' ∈ handle_client e ↔
      (0 < e.op_recv.count 1 ∧ 0 < e.path_recv.count (BUFFER_SIZE - 1))) ∧
    (e.path_recv = RecvResult.bytes [] →
      Event.send_byte 'T' ∉ handle_client e ∧
      ∀ ev ∈ handle_client e, ev.is_handler = false) := by
  constructor
  · unfold handle_client
    by_cases hop : e.op_recv.count 1 ≤ 0
    · have hn : ¬ 0 < e.op_recv.count 1 := not_lt.mpr hop
      simp [hop, hn, confirm_not_mem_cleanup]
    · have hp : 0 < e.op_recv.count 1 := not_le.mp hop
      by_cases hpath : 0 < e.path_recv.count (BUFFER_SIZE - 1)
      · obtain ⟨buf, hbuf⟩ := receive_path_isSome _ hpath
        simp [hop, hp, hpath, hbuf]
      · simp [hop, hpath, receive_path_eq_none _ hpath, confirm_not_mem_cleanup]
  · intro hclosed
    have hnone : receive_path e.path_recv = none := by
      rw [hclosed]
      exact receive_path_eq_none _ (by simp [RecvResult.count])
    unfold handle_client
    by_cases hop : e.op_recv.count 1 ≤ 0
    · simp only [hop, if_true]
      exact ⟨confirm_not_mem_cleanup e _, cleanup_no_handler e⟩
    · simp only [hop, if_false, hnone]
      exact ⟨confirm_not_mem_cleanup e _, cleanup_no_handler e⟩

/-- C2, as stated, fails: with the operation byte `'x'` and a path message the
server sends `'T'` before it reaches the dispatch. -/
theorem handle_client_invalid_op_confirmed :
    'x' ≠ 'w' ∧ 'x' ≠ 'r' ∧ 'x' ≠ 'l' ∧
    handle_client ⟨10, some ['/', 's', 'r', 'v'], .bytes ['x'],
        .bytes [NUL, NUL, NUL, NUL, NUL, 'a', NUL], 1⟩ =
      [Event.send_byte 'T', Event.mutex_lock, Event.invalid_operation 'x',
        Event.mutex_unlock, Event.close_socket, Event.remove_client 10] := by
  decide

/-- C2, amended: for an operation byte other than `'w'`, `'r'`, `'l'` no handler
is ever called, and when the dispatch is reached the operation is rejected
there and the session ends with its cleanup; the confirmation byte is sent all
the same as soon as the path message has been received, because it precedes the
dispatch. -/
theorem handle_client_invalid_op (e : SessionEnv) (opz : Char)
    (hop : e.op_recv = RecvResult.bytes [opz])
    (hw : opz ≠ 'w') (hr : opz ≠ 'r') (hl : opz ≠ 'l') :
    (∀ ev ∈ handle_client e, ev.is_handler = false) ∧
    (0 < e.path_recv.count (BUFFER_SIZE - 1) → Event.send_byte 'T' ∈ handle_client e) ∧
    (∀ buf fullpath, receive_path e.path_recv = some buf → 0 < e.confirm_send →
      construct_full_path e.ft_root_directory (some (c_string buf)) = .path fullpath →
      handle_client e =
        [Event.send_byte 'T', Event.mutex_lock, Event.invalid_operation opz,
          Event.mutex_unlock, Event.close_socket, Event.remove_client e.uid]) := by
  obtain ⟨uid, root, op, pr, cs⟩ := e
  simp only at hop
  subst hop
  have hcount : ¬ (RecvResult.bytes [opz]).count 1 ≤ 0 := by simp [RecvResult.count]
  have hdata : ((RecvResult.bytes [opz]).data 1).headD NUL = opz := by simp [RecvResult.data]
  refine ⟨?_, ?_, ?_⟩
  · unfold handle_client
    simp only [hcount, if_false, hdata]
    cases hrp : receive_path pr with
    | none => exact cleanup_no_handler _
    | some buf =>
      by_cases hs : cs ≤ 0
      · simp [hs, cleanup, Event.is_handler]
      · cases hc : construct_full_path root (some (c_string buf)) with
        | null => simp [hs, hc, cleanup, Event.is_handler]
        | out_of_bounds => simp [hs, hc, Event.is_handler]
        | path p => simp [hs, hc, cleanup, Event.is_handler, dispatch_invalid opz p hw hr hl]
  · intro hpath
    obtain ⟨buf, hbuf⟩ := receive_path_isSome _ hpath
    unfold handle_client
    simp only [hcount, if_false]
    simp only at hbuf
    simp [hbuf]
  · intro buf fullpath hbuf hsend hfull
    unfold handle_client
    have hs : ¬ cs ≤ 0 := not_le.mpr hsend
    simp only at hbuf hfull
    simp only [hcount, if_false, hdata, hbuf, hs, hfull, cleanup,
      dispatch_invalid opz fullpath hw hr hl]
    rfl

/-- The amended C2 at a concrete session. -/
theorem handle_client_invalid_op_witness :
    (∀ ev ∈ handle_client ⟨10, some ['/', 's', 'r', 'v'], .bytes ['x'], .bytes ['a'], 1⟩,
      ev.is_handler = false) ∧
    Event.send_byte 'T' ∈
      handle_client ⟨10, some ['/', 's', 'r', 'v'], .bytes ['x'], .bytes ['a'], 1⟩ :=
  have h := handle_client_invalid_op
    ⟨10, some ['/', 's', 'r', 'v'], .bytes ['x'], .bytes ['a'], 1⟩ 'x' rfl
    (by decide) (by decide) (by decide)
  ⟨h.1, h.2.1 (by decide)⟩

end Server

/-! ## Space admission and the transfer engine -/

theorem complete_eq (r : Option Nat) (h : complete r = true) :
    ∃ n, r = some n ∧ BUFFER_SIZE ≤ n := by
  cases r with
  | none => simp [complete] at h
  | some n => exact ⟨n, rfl, by simpa [complete] using h⟩

theorem progresses_eq (r : Option Nat) (h : progresses r = true) :
    ∃ n, r = some n ∧ 1 ≤ n := by
  cases r with
  | none => simp [progresses] at h
  | some n => exact ⟨n, rfl, by simpa [progresses] using h⟩

theorem Client.write_loop_eq (writes : Nat → Option Nat) (rs : List RecvResult) :
    ∀ (b k : Nat) (content : List Char),
      Client.write_loop writes rs b k content = Server.write_loop writes rs b k content := by
  induction rs with
  | nil => intro b k content; rfl
  | cons r rs ih =>
    intro b k content
    unfold Client.write_loop Server.write_loop
    simp only [ih]

theorem Client.write_file_in_dir_eq (e : Server.WriteEnv) :
    Client.write_file_in_dir e = Server.write_file_in_dir e := by
  unfold Client.write_file_in_dir Server.write_file_in_dir
  simp only [Client.write_loop_eq]

/-- The branch `bytes_on_device < 0` is never taken: the counter is unsigned. -/
theorem Server.write_loop_never_out_of_space (writes : Nat → Option Nat)
    (rs : List RecvResult) :
    ∀ (b k : Nat) (content : List Char),
      (Server.write_loop writes rs b k content).status ≠ Server.WriteStatus.out_of_space := by
  induction rs with
  | nil => intro b k content; simp [Server.write_loop]
  | cons r rs ih =>
    intro b k content
    unfold Server.write_loop
    simp only [Nat.not_lt_zero, if_false]
    split_ifs
    · cases writes k with
      | none => simp
      | some n => exact ih _ _ _
    · simp
    · simp

/-- With complete writes the loop stores every chunk it is given. -/
theorem Server.write_loop_chunks (writes : Nat → Option Nat)
    (hw : ∀ k, complete (writes k) = true) (chunks : List (List Char))
    (hc : ∀ c ∈ chunks, c ≠ [] ∧ c.length ≤ BUFFER_SIZE) :
    ∀ (b k : Nat) (content : List Char),
      Server.write_loop writes (chunks.map RecvResult.bytes) b k content =
        ⟨.finished, some (content ++ chunks.flatten), []⟩ := by
  induction chunks with
  | nil => intro b k content; simp [Server.write_loop]
  | cons c cs ih =>
    intro b k content
    have hc1 := hc c (List.mem_cons_self _ _)
    have hcs : ∀ d ∈ cs, d ≠ [] ∧ d.length ≤ BUFFER_SIZE :=
      fun d hd => hc d (List.mem_cons_of_mem _ hd)
    obtain ⟨n, hn, hle⟩ := complete_eq _ (hw k)
    have htake : c.take BUFFER_SIZE = c := List.take_of_length_le hc1.2
    have hpos : 0 < c.length := List.length_pos.mpr hc1.1
    have htake2 : c.take n = c := List.take_of_length_le (le_trans hc1.2 hle)
    simp only [List.map_cons, Server.write_loop, RecvResult.count, RecvResult.data, htake,
      Nat.cast_pos, hpos, if_true, Nat.not_lt_zero, if_false, hn, htake2, ih hcs,
      List.flatten_cons, List.append_assoc]

/-- C3 fails on the code: with 3 free bytes and three chunks of 2 bytes the
server and the client copy both write all 6 bytes and end normally; the claim
allows at most 3 bytes and an abort at the second chunk. -/
theorem write_file_in_dir_exceeds_free_space :
    Server.write_file_in_dir
        ⟨none, true, 3, [.bytes ['a', 'b'], .bytes ['c', 'd'], .bytes ['e', 'f']],
          fun _ => some 1024⟩ =
      ⟨.finished, some ['a', 'b', 'c', 'd', 'e', 'f'], []⟩ ∧
    Client.write_file_in_dir
        ⟨none, true, 3, [.bytes ['a', 'b'], .bytes ['c', 'd'], .bytes ['e', 'f']],
          fun _ => some 1024⟩ =
      ⟨.finished, some ['a', 'b', 'c', 'd', 'e', 'f'], []⟩ := by
  constructor <;> rfl

/-- The client loop of `send_data` with complete sends hands over the file. -/
theorem Client.send_data_loop_complete (sends : Nat → Option Nat)
    (hs : ∀ k, complete (sends k) = true) :
    ∀ (fuel k : Nat) (file sent : List Char), file.length < fuel →
      Client.send_data_loop sends fuel k file sent = some ⟨.finished, sent ++ file⟩ := by
  intro fuel
  induction fuel with
  | zero => intro k file sent h; omega
  | succ fuel ih =>
    intro k file sent h
    unfold Client.send_data_loop
    by_cases hpos : 0 < (file.take BUFFER_SIZE).length
    · obtain ⟨n, hn, hle⟩ := complete_eq _ (hs k)
      have hlen : (file.take BUFFER_SIZE).length ≤ n :=
        le_trans (List.length_take_le _ _) hle
      have hdrop : (file.drop BUFFER_SIZE).length < fuel := by
        have : 0 < BUFFER_SIZE := by decide
        simp only [List.length_take] at hpos
        simp only [List.length_drop]
        omega
      simp only [hpos, if_true, hn, List.take_of_length_le hlen, ih _ _ _ hdrop,
        List.append_assoc, List.take_append_drop]
    · have hnil : file = [] := by
        have : 0 < BUFFER_SIZE := by decide
        simp only [List.length_take] at hpos
        have : file.length = 0 := by omega
        exact List.length_eq_zero.mp this
      simp [hnil]

/-- The server machine of `send_data`, when every `send` takes at least one
byte, hands over what is pending and then the rest of the file, within
`pending + 2 * file + 1` steps. -/
theorem Server.send_data_loop_progress (sends : Nat → Option Nat)
    (hs : ∀ k, progresses (sends k) = true) :
    ∀ (fuel k : Nat) (pending file sent : List Char),
      pending.length + 2 * file.length + 1 ≤ fuel →
      Server.send_data_loop sends fuel k pending file sent =
        some ⟨.finished, sent ++ pending ++ file⟩ := by
  intro fuel
  induction fuel with
  | zero => intro k pending file sent h; omega
  | succ fuel ih =>
    intro k pending file sent h
    unfold Server.send_data_loop
    by_cases hp : 0 < pending.length
    · obtain ⟨n, hn, hle⟩ := progresses_eq _ (hs k)
      have hdrop : (pending.drop n).length + 2 * file.length + 1 ≤ fuel := by
        simp only [List.length_drop]
        omega
      have hsplit : sent ++ pending.take n ++ pending.drop n ++ file = sent ++ pending ++ file := by
        rw [List.append_assoc sent, List.take_append_drop]
      simp only [hp, if_true, hn, ih _ _ _ _ hdrop, hsplit]
    · have hnil : pending = [] := List.length_eq_zero.mp (by omega)
      subst hnil
      by_cases hb : 0 < (file.take BUFFER_SIZE).length
      · have hrec : (file.take BUFFER_SIZE).length + 2 * (file.drop BUFFER_SIZE).length + 1
            ≤ fuel := by
          have : 0 < BUFFER_SIZE := by decide
          simp only [List.length_take] at hb
          simp only [List.length_take, List.length_drop, List.length_nil] at h ⊢
          omega
        simp only [List.length_nil, lt_self_iff_false, if_false, hb, if_true,
          ih _ _ _ _ hrec, List.append_nil, List.append_assoc, List.take_append_drop]
      · have hfile : file = [] := by
          have : 0 < BUFFER_SIZE := by decide
          simp only [List.length_take] at hb
          exact List.length_eq_zero.mp (by omega)
        simp [hfile]

/-- C4, as stated, fails: with every send complete, no call failing and free
space enough, a `write` of the server that stores one byte of the two it is
given (its count is not looked at) leaves the file `a`, and the client gets
`a` back, not `ab`. -/
theorem write_read_round_trip_short_write :
    Client.send_data (fun _ => some 1024) 5 ['a', 'b'] = some ⟨.finished, ['a', 'b']⟩ ∧
    Server.write_file_in_dir ⟨none, true, 100, [.bytes ['a', 'b']], fun _ => some 1⟩ =
      ⟨.finished, some ['a'], []⟩ ∧
    Server.send_data (fun _ => some 1024) 5 ['a'] = some ⟨.finished, ['a']⟩ ∧
    Client.write_file_in_dir ⟨none, true, 100, [.bytes ['a']], fun _ => some 1024⟩ =
      ⟨.finished, some ['a'], []⟩ ∧
    ['a'] ≠ ['a', 'b'] :=
  ⟨rfl, rfl, rfl, rfl, by decide⟩

/-- C4, amended: a file streamed by the client into the server and streamed
back by the server into the client comes back byte for byte, whatever the file
(empty, one byte, longer than one buffer) and however the two streams are split
into receive chunks, when no call fails, the sends of the client are complete,
every write stores the whole chunk it is given and the free space is non-zero
and at least the size of the file. -/
theorem write_read_round_trip (F : List Char)
    (sends1 writes1 sends2 writes2 : Nat → Option Nat) (A1 A2 fuel : Nat)
    (old1 old2 : Option (List Char))
    (hs1 : ∀ k, complete (sends1 k) = true) (hw1 : ∀ k, complete (writes1 k) = true)
    (hs2 : ∀ k, progresses (sends2 k) = true) (hw2 : ∀ k, complete (writes2 k) = true)
    (hA1 : A1 ≠ 0) (_hF1 : F.length ≤ A1) (hA2 : A2 ≠ 0) (_hF2 : F.length ≤ A2)
    (hfuel : 2 * F.length + 1 ≤ fuel) :
    ∃ sent1 stored sent2,
      Client.send_data sends1 fuel F = some ⟨.finished, sent1⟩ ∧
      (∀ chunks1, chunking chunks1 sent1 →
        (Server.write_file_in_dir ⟨old1, true, A1, chunks1.map .bytes, writes1⟩).file =
          some stored) ∧
      Server.send_data sends2 fuel stored = some ⟨.finished, sent2⟩ ∧
      (∀ chunks2, chunking chunks2 sent2 →
        (Client.write_file_in_dir ⟨old2, true, A2, chunks2.map .bytes, writes2⟩).file =
          some F) := by
  refine ⟨F, F, F, ?_, ?_, ?_, ?_⟩
  · have h := Client.send_data_loop_complete sends1 hs1 fuel 0 F [] (by omega)
    simpa [Client.send_data] using h
  · intro chunks1 hc
    have h := Server.write_loop_chunks writes1 hw1 chunks1 hc.2 A1 0 []
    simp [Server.write_file_in_dir, hA1, h, hc.1]
  · have h := Server.send_data_loop_progress sends2 hs2 fuel 0 [] F []
      (by simp only [List.length_nil]; omega)
    simpa [Server.send_data] using h
  · intro chunks2 hc
    have h := Server.write_loop_chunks writes2 hw2 chunks2 hc.2 A2 0 []
    rw [Client.write_file_in_dir_eq]
    simp [Server.write_file_in_dir, hA2, h, hc.1]

/-- The amended C4 at a file of 2050 bytes, complete client sends and writes,
one-byte server sends. -/
theorem write_read_round_trip_witness :
    (2 * (List.replicate 2050 'z').length + 1 ≤ 5000) ∧
    ∃ sent1 stored sent2,
      Client.send_data (fun _ => some 1024) 5000 (List.replicate 2050 'z') =
        some ⟨.finished, sent1⟩ ∧
      (∀ chunks1, chunking chunks1 sent1 →
        (Server.write_file_in_dir
          ⟨some ['o', 'l', 'd'], true, 4096, chunks1.map .bytes, fun _ => some 1024⟩).file =
          some stored) ∧
      Server.send_data (fun _ => some 1) 5000 stored = some ⟨.finished, sent2⟩ ∧
      (∀ chunks2, chunking chunks2 sent2 →
        (Client.write_file_in_dir
          ⟨none, true, 4096, chunks2.map .bytes, fun _ => some 1024⟩).file =
          some (List.replicate 2050 'z')) :=
  ⟨by rw [List.length_replicate]; decide,
    write_read_round_trip (List.replicate 2050 'z') (fun _ => some 1024) (fun _ => some 1024)
      (fun _ => some 1) (fun _ => some 1024) 4096 4096 5000 (some ['o', 'l', 'd']) none
      (fun _ => rfl) (fun _ => rfl) (fun _ => rfl) (fun _ => rfl)
      (by decide) (by rw [List.length_replicate]; decide) (by decide)
      (by rw [List.length_replicate]; decide) (by rw [List.length_replicate]; decide)⟩

/-! ## The path message -/

theorem strncpy_c_string (path : List Char) :
    ∀ n, NUL ∉ path → path.length ≤ n →
      strncpy (path ++ [NUL]) n = path ++ List.replicate (n - path.length) NUL := by
  induction path with
  | nil =>
    intro n _ _
    cases n with
    | zero => simp [strncpy]
    | succ n => simp [strncpy]
  | cons c cs ih =>
    intro n hnul hlen
    cases n with
    | zero => simp at hlen
    | succ n =>
      have hc : c ≠ NUL := fun h => hnul (by simp [h])
      have hcs : NUL ∉ cs := fun h => hnul (List.mem_cons_of_mem _ h)
      have hl : cs.length ≤ n := by simpa using hlen
      simp [strncpy, hc, ih n hcs hl]

/-- The message `send_filepath` hands to `send`. -/
theorem Client.send_filepath_eq (path : List Char) (hnul : NUL ∉ path)
    (hlen : path.length + 6 ≤ BUFFER_SIZE) :
    Client.send_filepath path = some (List.replicate 5 NUL ++ path ++ [NUL]) := by
  have hl : path.length ≤ BUFFER_SIZE - 6 := by omega
  unfold Client.send_filepath
  simp only [hlen, if_true, strncpy_c_string path _ hnul hl, Option.some.injEq]
  have hshape : List.replicate 5 NUL ++ (path ++ List.replicate (BUFFER_SIZE - 6 - path.length) NUL)
      ++ [NUL] =
      (List.replicate 5 NUL ++ path) ++
        (List.replicate (BUFFER_SIZE - 6 - path.length) NUL ++ [NUL]) := by
    simp
  have hn : path.length + 6 = (List.replicate 5 NUL ++ path).length + 1 := by
    simp
  rw [hshape, hn, List.take_append]
  congr 1
  cases BUFFER_SIZE - 6 - path.length with
  | zero => simp
  | succ m => simp [List.replicate_succ]

/-- C5, as stated, fails: for the path `a` the client hands 7 bytes to `send`,
the last one being the terminator, not 1 + 5 bytes. -/
theorem send_filepath_sends_terminator :
    Client.send_filepath ['a'] = some [NUL, NUL, NUL, NUL, NUL, 'a', NUL] ∧
    [NUL, NUL, NUL, NUL, NUL, 'a', NUL].length ≠ ['a'].length + 5 := by
  decide

/-- C5, amended: for every path that fits the buffer (`strlen(path) + 6` at most
`BUFFER_SIZE`) the client transmits exactly `length(path) + 6` bytes: five zero
padding bytes, the raw path bytes, and one terminator byte. -/
theorem send_filepath_message (path : List Char) (hnul : NUL ∉ path)
    (hlen : path.length + 6 ≤ BUFFER_SIZE) :
    ∃ msg, Client.send_filepath path = some msg ∧
      msg = List.replicate 5 NUL ++ path ++ [NUL] ∧
      msg.length = path.length + 6 :=
  ⟨_, Client.send_filepath_eq path hnul hlen, rfl, by simp⟩

/-- The amended C5 at the path `sub/f.txt`. -/
theorem send_filepath_message_witness :
    ∃ msg, Client.send_filepath "sub/f.txt".toList = some msg ∧
      msg = List.replicate 5 NUL ++ "sub/f.txt".toList ++ [NUL] ∧
      msg.length = "sub/f.txt".toList.length + 6 :=
  send_filepath_message "sub/f.txt".toList (by decide) (by decide)

theorem c_string_eq_takeWhile (l : List Char) :
    c_string l = l.takeWhile (fun c => decide (c ≠ NUL)) := by
  induction l with
  | nil => rfl
  | cons c cs ih =>
    by_cases h : c = NUL
    · simp [c_string, h]
    · simp [c_string, h, ih]

theorem c_string_of_no_nul (l : List Char) (h : NUL ∉ l) : c_string l = l := by
  induction l with
  | nil => rfl
  | cons c cs ih =>
    have hc : c ≠ NUL := fun e => h (by simp [e])
    have hcs : NUL ∉ cs := fun m => h (List.mem_cons_of_mem _ m)
    simp [c_string, hc, ih hcs]

theorem c_string_strncpy (l : List Char) :
    c_string (strncpy (l ++ [NUL]) (l.length + 1)) = c_string l := by
  induction l with
  | nil => simp [strncpy, c_string, List.replicate_succ]
  | cons c cs ih =>
    by_cases h : c = NUL
    · simp [strncpy, c_string, h, List.replicate_succ]
    · simp [strncpy, c_string, h, ih]

theorem Server.leading_zeros_le (l : List Char) : Server.leading_zeros l ≤ l.length := by
  induction l with
  | nil => simp [Server.leading_zeros]
  | cons c cs ih =>
    by_cases h : c = NUL
    · simp [Server.leading_zeros, h, ih]
    · simp [Server.leading_zeros, h]

theorem Server.drop_leading_zeros (l : List Char) :
    l.drop (Server.leading_zeros l) = l.dropWhile (fun c => decide (c = NUL)) := by
  induction l with
  | nil => rfl
  | cons c cs ih =>
    by_cases h : c = NUL
    · simp [Server.leading_zeros, h, ih]
    · simp [Server.leading_zeros, h]

/-- The buffer `receive_path` returns for a message that fits its buffer. -/
theorem Server.receive_path_eq (msg : List Char) (h1 : 1 ≤ msg.length)
    (h2 : msg.length ≤ BUFFER_SIZE - 1) :
    Server.receive_path (.bytes msg) =
      some (strncpy (msg.dropWhile (fun c => decide (c = NUL)) ++ [NUL])
        ((msg.dropWhile (fun c => decide (c = NUL))).length + 1)) := by
  have htake : msg.take (BUFFER_SIZE - 1) = msg := List.take_of_length_le h2
  have hpos : (0 : Int) < (msg.length : Int) := by exact_mod_cast h1
  have hle := Server.leading_zeros_le msg
  unfold Server.receive_path
  simp only [RecvResult.count, RecvResult.data, htake, hpos, if_true, Int.toNat_ofNat,
    Option.some.injEq]
  rw [List.drop_append_of_le_length hle, Server.drop_leading_zeros, ← Server.drop_leading_zeros,
    List.length_drop]

/-- C6, as stated, fails: of the message `a`, NUL, `b` the server keeps the
path `a`; the bytes after the first interior zero byte are dropped. -/
theorem receive_path_drops_after_zero :
    Server.receive_path (.bytes ['a', NUL, 'b']) = some ['a', NUL, NUL, NUL] ∧
    c_string ['a', NUL, NUL, NUL] = ['a'] ∧
    ['a', NUL, 'b'].dropWhile (fun c => decide (c = NUL)) = ['a', NUL, 'b'] ∧
    ['a', NUL, NUL, NUL] ≠ ['a', NUL, 'b'] ∧ ['a'] ≠ ['a', NUL, 'b'] := by
  decide

/-- C6, amended: for every received message of 1 to 1023 bytes, `receive_path`
returns a buffer whose string is the received bytes without their leading zero
bytes, up to the first zero byte that follows; when no zero byte follows the
leading ones, the path is exactly the remaining bytes, in order. -/
theorem receive_path_strips_leading_zeros (msg : List Char) (h1 : 1 ≤ msg.length)
    (h2 : msg.length ≤ 1023) :
    ∃ buf, Server.receive_path (.bytes msg) = some buf ∧
      c_string buf =
        (msg.dropWhile (fun c => decide (c = NUL))).takeWhile (fun c => decide (c ≠ NUL)) ∧
      (NUL ∉ msg.dropWhile (fun c => decide (c = NUL)) →
        c_string buf = msg.dropWhile (fun c => decide (c = NUL))) := by
  refine ⟨_, Server.receive_path_eq msg h1 (by simpa [BUFFER_SIZE] using h2), ?_, ?_⟩
  · rw [c_string_strncpy, c_string_eq_takeWhile]
  · intro h
    rw [c_string_strncpy, c_string_of_no_nul _ h]

/-- The amended C6 at the message the client sends for the path `ab`. -/
theorem receive_path_strips_leading_zeros_witness :
    ∃ buf, Server.receive_path (.bytes [NUL, NUL, NUL, NUL, NUL, 'a', 'b', NUL]) = some buf ∧
      c_string buf = ['a', 'b'] :=
  have h := receive_path_strips_leading_zeros [NUL, NUL, NUL, NUL, NUL, 'a', 'b', NUL]
    (by decide) (by decide)
  h.imp fun _ hb => ⟨hb.1, hb.2.1.trans (by decide)⟩

/-! ## Path resolution -/

theorem Server.strip_leading_slashes_eq (l : List Char) :
    Server.strip_leading_slashes l = l.dropWhile (fun c => decide (c = '/')) := by
  induction l with
  | nil => rfl
  | cons c cs ih =>
    by_cases h : c = '/'
    · simp [Server.strip_leading_slashes, h, ih]
    · simp [Server.strip_leading_slashes, h]

/-- What `construct_full_path` builds from a non-empty root. -/
theorem Server.construct_full_path_eq (root relative : List Char) (h : root ≠ []) :
    Server.construct_full_path (some root) (some relative) =
      .path ((if root.getLast? = some '/' then root else root ++ ['/']) ++
        relative.dropWhile (fun c => decide (c = '/'))) := by
  obtain ⟨init, last, rfl⟩ : ∃ init last, root = init ++ [last] :=
    ⟨root.dropLast, root.getLast h, (List.dropLast_append_getLast h).symm⟩
  unfold Server.construct_full_path
  simp only [List.getLast?_concat, Server.strip_leading_slashes_eq, Option.some.injEq]
  by_cases hl : last = '/'
  · simp [hl]
  · simp [hl]

/-- C7, as stated, fails: for the root `a//` the two parts are joined by two
separators, where the claim has `a/b`. -/
theorem construct_full_path_doubled_separator :
    Server.construct_full_path (some ['a', '/', '/']) (some ['b']) =
      .path ['a', '/', '/', 'b'] ∧
    ['a', '/', '/'].rdropWhile (fun c => decide (c = '/')) ++ ['/'] ++
      ['b'].dropWhile (fun c => decide (c = '/')) = ['a', '/', 'b'] ∧
    ['a', '/', '/', 'b'] ≠ ['a', '/', 'b'] := by
  decide

/-- C7, amended: for every non-empty root that does not end in two separators
and every relative path, `construct_full_path` returns root without its
trailing separator and relative without its leading separators, joined by
exactly one separator. -/
theorem construct_full_path_joins (root relative : List Char) (h : root ≠ [])
    (h2 : ¬ ['/', '/'] <:+ root) :
    Server.construct_full_path (some root) (some relative) =
      .path (root.rdropWhile (fun c => decide (c = '/')) ++ ['/'] ++
        relative.dropWhile (fun c => decide (c = '/'))) := by
  rw [Server.construct_full_path_eq root relative h]
  obtain ⟨init, last, rfl⟩ : ∃ init last, root = init ++ [last] :=
    ⟨root.dropLast, root.getLast h, (List.dropLast_append_getLast h).symm⟩
  by_cases hl : last = '/'
  · subst hl
    have hinit : init.rdropWhile (fun c => decide (c = '/')) = init := by
      rcases List.eq_nil_or_concat init with hnil | ⟨i2, l2, rfl⟩
      · simp [hnil]
      · rw [List.concat_eq_append] at h2 ⊢
        have hl2 : l2 ≠ '/' := by
          intro e
          apply h2
          subst e
          exact ⟨i2, by simp⟩
        rw [List.rdropWhile_concat_neg]
        simpa using hl2
    rw [List.rdropWhile_concat_pos _ _ _ (by simp), hinit]
    simp
  · rw [List.rdropWhile_concat_neg _ _ _ (by simpa using hl)]
    simp [hl]

/-- The amended C7 at the root `/srv/` and the relative path `//sub/f`. -/
theorem construct_full_path_joins_witness :
    Server.construct_full_path (some "/srv/".toList) (some "//sub/f".toList) =
      .path "/srv/sub/f".toList :=
  (construct_full_path_joins "/srv/".toList "//sub/f".toList (by decide) (by decide)).trans
    (by decide)

/-- C8, as stated, fails: an empty relative path is not rejected, the result is
the root followed by one separator. -/
theorem construct_full_path_empty_relative :
    Server.construct_full_path (some ['/', 's', 'r', 'v']) (some []) =
      .path ['/', 's', 'r', 'v', '/'] ∧
    Server.construct_full_path (some ['/', 's', 'r', 'v']) (some []) ≠ .null := by
  decide

/-- C8, amended: `construct_full_path` returns `NULL` whenever one of its
arguments is `NULL`; with a non-empty root it returns a path for every relative
path, and for the empty relative path that path is the root followed by one
separator unless the root already ends in one. -/
theorem construct_full_path_null (root relative : Option (List Char)) :
    (root = none ∨ relative = none → Server.construct_full_path root relative = .null) ∧
    (∀ r rel, root = some r → relative = some rel → r ≠ [] →
      ∃ p, Server.construct_full_path root relative = .path p) ∧
    (∀ r, root = some r → relative = some [] → r ≠ [] →
      Server.construct_full_path root relative =
        .path (if r.getLast? = some '/' then r else r ++ ['/'])) := by
  refine ⟨?_, ?_, ?_⟩
  · rintro (h | h)
    · subst h
      rfl
    · subst h
      cases root <;> rfl
  · rintro r rel rfl rfl hr
    exact ⟨_, Server.construct_full_path_eq r rel hr⟩
  · rintro r rfl rfl hr
    rw [Server.construct_full_path_eq r [] hr]
    simp

/-- The amended C8 at a missing root and at the empty relative path. -/
theorem construct_full_path_null_witness :
    Server.construct_full_path none (some ['f']) = .null ∧
    Server.construct_full_path (some ['/', 's', 'r', 'v']) (some []) =
      .path ['/', 's', 'r', 'v', '/'] :=
  ⟨(construct_full_path_null none (some ['f'])).1 (Or.inl rfl),
    ((construct_full_path_null (some ['/', 's', 'r', 'v']) (some [])).2.2
      ['/', 's', 'r', 'v'] rfl rfl (by decide)).trans (by decide)⟩

theorem Server.strrchr_none (c : Char) (l : List Char) :
    Server.strrchr l c = none ↔ c ∉ l := by
  induction l with
  | nil => simp [Server.strrchr]
  | cons x xs ih =>
    unfold Server.strrchr
    cases hx : Server.strrchr xs c with
    | some i =>
      have : c ∈ xs := by
        by_contra hc
        rw [ih.mpr hc] at hx
        cases hx
      simp [this]
    | none =>
      have hc : c ∉ xs := ih.mp hx
      by_cases hxc : x = c
      · simp [hxc]
      · have : c ≠ x := fun e => hxc e.symm
        simp [hxc, hc, this]

theorem Server.strrchr_some (c : Char) (l : List Char) :
    ∀ i, Server.strrchr l c = some i →
      l.take i ++ c :: l.drop (i + 1) = l ∧ c ∉ l.drop (i + 1) := by
  induction l with
  | nil => intro i h; simp [Server.strrchr] at h
  | cons x xs ih =>
    intro i h
    unfold Server.strrchr at h
    cases hx : Server.strrchr xs c with
    | some j =>
      rw [hx] at h
      simp only [Option.some.injEq] at h
      subst h
      obtain ⟨h1, h2⟩ := ih j hx
      exact ⟨by simp [h1], by simpa using h2⟩
    | none =>
      rw [hx] at h
      have hc : c ∉ xs := (Server.strrchr_none c xs).mp hx
      by_cases hxc : x = c
      · simp only [hxc, if_true, Option.some.injEq] at h
        subst h
        exact ⟨by simp [hxc], by simpa using hc⟩
      · simp [hxc] at h

/-- C9, as stated, fails for the server version: for a path without separator
the directory it returns is the empty string, not the current directory. -/
theorem server_divide_without_separator :
    '/' ∉ ['f'] ∧
    Server.divide_dirpath_from_filename ['f'] = ([], ['f']) ∧
    (Server.divide_dirpath_from_filename ['f']).1 ≠ ['.'] := by
  decide

/-- C9, amended: for every path that contains a separator both versions return
the same pair (directory, leaf), with directory, one separator and leaf making
up the path and no separator in the leaf; for every path without separator the
leaf is the whole path and the directory is `.` in the client version and the
empty string in the server version. -/
theorem divide_dirpath_from_filename_split (path : List Char) :
    ('/' ∈ path →
      (Server.divide_dirpath_from_filename path).1 ++ ['/'] ++
          (Server.divide_dirpath_from_filename path).2 = path ∧
      '/' ∉ (Server.divide_dirpath_from_filename path).2 ∧
      Client.divide_dirpath_from_filename path = Server.divide_dirpath_from_filename path) ∧
    ('/' ∉ path →
      Client.divide_dirpath_from_filename path = (['.'], path) ∧
      Server.divide_dirpath_from_filename path = ([], path)) := by
  constructor
  · intro hmem
    cases hx : Server.strrchr path '/' with
    | none => exact absurd hmem ((Server.strrchr_none _ _).mp hx)
    | some i =>
      obtain ⟨h1, h2⟩ := Server.strrchr_some _ _ i hx
      simp only [Server.divide_dirpath_from_filename, Client.divide_dirpath_from_filename, hx]
      exact ⟨by simpa using h1, h2, trivial⟩
  · intro hmem
    have hx := (Server.strrchr_none _ _).mpr hmem
    simp [Server.divide_dirpath_from_filename, Client.divide_dirpath_from_filename, hx]

/-- The amended C9 at `sub/dir/file.txt` and at `file.txt`. -/
theorem divide_dirpath_from_filename_split_witness :
    Server.divide_dirpath_from_filename "sub/dir/file.txt".toList =
      ("sub/dir".toList, "file.txt".toList) ∧
    Client.divide_dirpath_from_filename "sub/dir/file.txt".toList =
      ("sub/dir".toList, "file.txt".toList) ∧
    Client.divide_dirpath_from_filename "file.txt".toList = (['.'], "file.txt".toList) ∧
    Server.divide_dirpath_from_filename "file.txt".toList = ([], "file.txt".toList) :=
  have h1 := (divide_dirpath_from_filename_split "sub/dir/file.txt".toList).1 (by decide)
  have h2 := (divide_dirpath_from_filename_split "file.txt".toList).2 (by decide)
  ⟨by decide, h1.2.2.trans (by decide), h2.1, h2.2⟩

/-! ## Creating directories -/

theorem Server.mkdir_spec (fs fs1 : Server.FS) (path : List Char)
    (h : fs.mkdir path = some fs1) :
    (∀ p k, fs.lookup p = some k → fs1.lookup p = some k) ∧
    fs1.stat path = some Server.Kind.dir := by
  unfold Server.FS.mkdir at h
  simp only at h
  split_ifs at h with hc
  simp only [Option.some.injEq] at h
  subst h
  constructor
  · intro p k hp
    unfold Server.FS.lookup at hp ⊢
    by_cases hs : p.segs = []
    · simpa [hs] using hp
    · simp only [hs, if_false] at hp ⊢
      by_cases he : p = Server.resolve path
      · subst he
        have hn := hc.2
        unfold Server.FS.lookup at hn
        simp only [hs, if_false] at hn
        rw [hn] at hp
        cases hp
      · simpa [he] using hp
  · unfold Server.FS.stat Server.FS.lookup
    split_ifs
    · rfl
    · simp

/-- The loop only adds entries: what exists keeps its kind. -/
theorem Server.ensure_loop_preserves (toks : List (List Char)) :
    ∀ (fs fs1 : Server.FS) (cur : List Char) (r : Int),
      Server.ensure_loop fs cur toks = some (r, fs1) →
      ∀ p k, fs.lookup p = some k → fs1.lookup p = some k := by
  induction toks with
  | nil =>
    intro fs fs1 cur r h p k hp
    simp only [Server.ensure_loop, Option.some.injEq, Prod.mk.injEq] at h
    rw [← h.2]
    exact hp
  | cons tok rest ih =>
    intro fs fs1 cur r h p k hp
    unfold Server.ensure_loop at h
    simp only at h
    split_ifs at h with hlen
    cases hst : fs.stat (cur ++ tok ++ ['/']) with
    | none =>
      rw [hst] at h
      simp only at h
      cases hmk : fs.mkdir (cur ++ tok ++ ['/']) with
      | none =>
        rw [hmk] at h
        simp only [Option.some.injEq, Prod.mk.injEq] at h
        rw [← h.2]
        exact hp
      | some fs2 =>
        rw [hmk] at h
        exact ih fs2 fs1 _ r h p k ((Server.mkdir_spec fs fs2 _ hmk).1 p k hp)
    | some kd =>
      rw [hst] at h
      simp only at h
      split_ifs at h with hk
      · exact ih fs fs1 _ r h p k hp
      · simp only [Option.some.injEq, Prod.mk.injEq] at h
        rw [← h.2]
        exact hp

theorem Server.ensure_loop_idempotent (toks : List (List Char)) :
    ∀ (fs fs1 : Server.FS) (cur : List Char),
      Server.ensure_loop fs cur toks = some (1, fs1) →
      Server.ensure_loop fs1 cur toks = some (1, fs1) := by
  induction toks with
  | nil =>
    intro fs fs1 cur _
    rfl
  | cons tok rest ih =>
    intro fs fs1 cur h
    unfold Server.ensure_loop at h ⊢
    simp only at h ⊢
    split_ifs at h with hlen
    simp only [hlen, if_false]
    cases hst : fs.stat (cur ++ tok ++ ['/']) with
    | none =>
      rw [hst] at h
      simp only at h
      cases hmk : fs.mkdir (cur ++ tok ++ ['/']) with
      | none =>
        rw [hmk] at h
        simp at h
      | some fs2 =>
        rw [hmk] at h
        have hdir : fs1.stat (cur ++ tok ++ ['/']) = some Server.Kind.dir :=
          Server.ensure_loop_preserves rest fs2 fs1 _ 1 h _ _ (Server.mkdir_spec fs fs2 _ hmk).2
        rw [hdir]
        simp only [if_true]
        exact ih fs2 fs1 _ h
    | some kd =>
      rw [hst] at h
      simp only at h
      split_ifs at h with hk
      · subst hk
        have hdir : fs1.stat (cur ++ tok ++ ['/']) = some Server.Kind.dir :=
          Server.ensure_loop_preserves rest fs fs1 _ 1 h _ _ hst
        rw [hdir]
        simp only [if_true]
        exact ih fs fs1 _ h
      · simp at h

/-- C10: whenever a first call of `ensure_directory_exists` returns success, a
second call on the same path from the file system the first one left also
returns success and leaves that file system as it is. -/
theorem ensure_directory_exists_idempotent (fs fs1 : Server.FS) (dirpath : List Char)
    (h : Server.ensure_directory_exists fs dirpath = some (1, fs1)) :
    Server.ensure_directory_exists fs1 dirpath = some (1, fs1) :=
  Server.ensure_loop_idempotent _ fs fs1 _ h

/-- C10 at `/srv/sub/dir` on the empty file system: three directories are
created by the first call and the second call changes nothing. -/
theorem ensure_directory_exists_idempotent_witness :
    ∃ fs1 : Server.FS,
      Server.ensure_directory_exists (fun _ => none) "/srv/sub/dir".toList = some (1, fs1) ∧
      fs1 ⟨true, ["srv".toList, "sub".toList, "dir".toList]⟩ = some Server.Kind.dir ∧
      Server.ensure_directory_exists fs1 "/srv/sub/dir".toList = some (1, fs1) :=
  have h : ∃ fs1 : Server.FS,
      Server.ensure_directory_exists (fun _ => none) "/srv/sub/dir".toList = some (1, fs1) ∧
      fs1 ⟨true, ["srv".toList, "sub".toList, "dir".toList]⟩ = some Server.Kind.dir :=
    ⟨_, rfl, by decide⟩
  h.elim fun fs1 h1 =>
    ⟨fs1, h1.1, h1.2, ensure_directory_exists_idempotent _ fs1 _ h1.1⟩

/-! ## Tokens and resolved paths -/

theorem Server.strtok_from_append_slash (a b : List Char) :
    ∀ acc, Server.strtok_from acc (a ++ '/' :: b) =
      Server.strtok_from acc a ++ Server.strtok_from [] b := by
  induction a with
  | nil =>
    intro acc
    by_cases h : acc = [] <;> simp [Server.strtok_from, h]
  | cons c cs ih =>
    intro acc
    by_cases hc : c = '/'
    · by_cases h : acc = [] <;> simp [Server.strtok_from, hc, h, ih]
    · simp [Server.strtok_from, hc, ih]

theorem Server.strtok_from_token (tok : List Char) (h : '/' ∉ tok) :
    ∀ acc, Server.strtok_from acc tok = if acc ++ tok = [] then [] else [acc ++ tok] := by
  induction tok with
  | nil => intro acc; simp [Server.strtok_from]
  | cons c cs ih =>
    intro acc
    have hc : c ≠ '/' := fun e => h (by simp [e])
    have hcs : '/' ∉ cs := fun m => h (List.mem_cons_of_mem _ m)
    simp [Server.strtok_from, hc, ih hcs]

theorem Server.strtok_from_wf (s : List Char) :
    ∀ acc, '/' ∉ acc → ∀ t ∈ Server.strtok_from acc s, t ≠ [] ∧ '/' ∉ t := by
  induction s with
  | nil =>
    intro acc hacc t ht
    by_cases h : acc = []
    · simp [Server.strtok_from, h] at ht
    · simp only [Server.strtok_from, h, if_false, List.mem_singleton] at ht
      subst ht
      exact ⟨h, hacc⟩
  | cons c cs ih =>
    intro acc hacc t ht
    by_cases hc : c = '/'
    · by_cases h : acc = []
      · simp only [Server.strtok_from, hc, h, if_true] at ht
        exact ih [] (by simp) t ht
      · simp only [Server.strtok_from, hc, h, if_true, if_false, List.mem_cons] at ht
        rcases ht with ht | ht
        · subst ht
          exact ⟨h, hacc⟩
        · exact ih [] (by simp) t ht
    · simp only [Server.strtok_from, hc, if_false] at ht
      refine ih (acc ++ [c]) ?_ t ht
      intro hm
      rcases List.mem_append.mp hm with hm | hm
      · exact hacc hm
      · have hsl : '/' = c := by simpa using hm
        exact hc hsl.symm

theorem Server.strtok_all_wf (s : List Char) :
    ∀ t ∈ Server.strtok_all s, t ≠ [] ∧ '/' ∉ t :=
  Server.strtok_from_wf s [] (by simp)

theorem Server.strtok_all_flatten (toks : List (List Char))
    (hwf : ∀ t ∈ toks, t ≠ [] ∧ '/' ∉ t) :
    Server.strtok_all (toks.map (fun t => t ++ ['/'])).flatten = toks := by
  induction toks with
  | nil => simp [Server.strtok_all, Server.strtok_from]
  | cons t ts ih =>
    have ht := hwf t (List.mem_cons_self _ _)
    have hts : ∀ u ∈ ts, u ≠ [] ∧ '/' ∉ u := fun u hu => hwf u (List.mem_cons_of_mem _ hu)
    have ih' := ih hts
    unfold Server.strtok_all at ih' ⊢
    simp only [List.map_cons, List.flatten_cons, List.append_assoc, List.singleton_append]
    rw [Server.strtok_from_append_slash, Server.strtok_from_token t ht.2, ih']
    simp [ht.1]

theorem path_of_tokens_snoc (a : Bool) (done : List (List Char)) (tok : List Char) :
    path_of_tokens a (done ++ [tok]) = path_of_tokens a done ++ tok ++ ['/'] := by
  simp [path_of_tokens]

/-- The path built by the loop resolves to the tokens appended so far. -/
theorem Server.resolve_path_of_tokens (a : Bool) (toks : List (List Char))
    (hwf : ∀ t ∈ toks, t ≠ [] ∧ '/' ∉ t) :
    Server.resolve (path_of_tokens a toks) = ⟨a, toks⟩ := by
  have hflat := Server.strtok_all_flatten toks hwf
  unfold Server.resolve
  cases a with
  | true =>
    have : Server.strtok_all (path_of_tokens true toks) = toks := by
      unfold Server.strtok_all at hflat ⊢
      simp [path_of_tokens, Server.strtok_from, hflat]
    rw [this]
    simp [path_of_tokens]
  | false =>
    have : Server.strtok_all (path_of_tokens false toks) = toks := by
      simpa [path_of_tokens] using hflat
    rw [this]
    congr 1
    cases toks with
    | nil => simp [path_of_tokens]
    | cons t ts =>
      have ht := hwf t (List.mem_cons_self _ _)
      cases t with
      | nil => exact absurd rfl ht.1
      | cons c cs =>
        have hc : c ≠ '/' := fun e => ht.2 (by simp [e])
        simp [path_of_tokens, hc]

theorem path_of_tokens_append (a : Bool) (xs ys : List (List Char)) :
    path_of_tokens a (xs ++ ys) =
      path_of_tokens a xs ++ (ys.map (fun t => t ++ ['/'])).flatten := by
  simp [path_of_tokens]

theorem Server.mkdir_eq (fs fs1 : Server.FS) (path : List Char)
    (h : fs.mkdir path = some fs1) :
    fs1 = (fun q => if q = Server.resolve path then some Server.Kind.dir else fs q) ∧
    fs.lookup (Server.resolve path) = none := by
  unfold Server.FS.mkdir at h
  simp only at h
  split_ifs at h with hc
  simp only [Option.some.injEq] at h
  exact ⟨h.symm, hc.2⟩

theorem Server.mkdir_env_some (denied : Server.FPath → Bool) (fs fs1 : Server.FS)
    (path : List Char) (h : fs.mkdir_env denied path = some fs1) :
    fs.mkdir path = some fs1 := by
  unfold Server.FS.mkdir_env at h
  split_ifs at h
  exact h

theorem Server.ensure_loop_env_false (toks : List (List Char)) :
    ∀ (fs : Server.FS) (cur : List Char),
      Server.ensure_loop_env (fun _ => false) fs cur toks = Server.ensure_loop fs cur toks := by
  induction toks with
  | nil => intro fs cur; rfl
  | cons tok rest ih =>
    intro fs cur
    unfold Server.ensure_loop_env Server.ensure_loop
    simp [Server.FS.mkdir_env, ih]

theorem Server.ensure_directory_exists_env_false (fs : Server.FS) (dirpath : List Char) :
    Server.ensure_directory_exists_env (fun _ => false) fs dirpath =
      Server.ensure_directory_exists fs dirpath := by
  unfold Server.ensure_directory_exists_env Server.ensure_directory_exists
  exact Server.ensure_loop_env_false _ _ _

theorem Server.ensure_loop_env_preserves (denied : Server.FPath → Bool)
    (toks : List (List Char)) :
    ∀ (fs fs1 : Server.FS) (cur : List Char) (r : Int),
      Server.ensure_loop_env denied fs cur toks = some (r, fs1) →
      ∀ p k, fs.lookup p = some k → fs1.lookup p = some k := by
  induction toks with
  | nil =>
    intro fs fs1 cur r h p k hp
    simp only [Server.ensure_loop_env, Option.some.injEq, Prod.mk.injEq] at h
    rw [← h.2]
    exact hp
  | cons tok rest ih =>
    intro fs fs1 cur r h p k hp
    unfold Server.ensure_loop_env at h
    simp only at h
    split_ifs at h with hlen
    cases hst : fs.stat (cur ++ tok ++ ['/']) with
    | none =>
      rw [hst] at h
      simp only at h
      cases hmk : fs.mkdir_env denied (cur ++ tok ++ ['/']) with
      | none =>
        rw [hmk] at h
        simp only [Option.some.injEq, Prod.mk.injEq] at h
        rw [← h.2]
        exact hp
      | some fs2 =>
        rw [hmk] at h
        exact ih fs2 fs1 _ r h p k
          ((Server.mkdir_spec fs fs2 _ (Server.mkdir_env_some _ _ _ _ hmk)).1 p k hp)
    | some kd =>
      rw [hst] at h
      simp only at h
      split_ifs at h with hk
      · exact ih fs fs1 _ r h p k hp
      · simp only [Option.some.injEq, Prod.mk.injEq] at h
        rw [← h.2]
        exact hp

theorem Server.stat_path_of_tokens (fs : Server.FS) (a : Bool) (toks : List (List Char))
    (hwf : ∀ t ∈ toks, t ≠ [] ∧ '/' ∉ t) :
    fs.stat (path_of_tokens a toks) = fs.lookup ⟨a, toks⟩ := by
  unfold Server.FS.stat
  rw [Server.resolve_path_of_tokens a toks hwf]

/-- After a successful loop every prefix of the tokens is a directory. -/
theorem Server.ensure_loop_env_dirs (denied : Server.FPath → Bool) (a : Bool)
    (toks : List (List Char)) :
    ∀ (fs fs1 : Server.FS) (done : List (List Char)),
      (∀ t ∈ done ++ toks, t ≠ [] ∧ '/' ∉ t) →
      Server.ensure_loop_env denied fs (path_of_tokens a done) toks = some (1, fs1) →
      ∀ i, i < toks.length →
        fs1.lookup ⟨a, done ++ toks.take (i + 1)⟩ = some Server.Kind.dir := by
  induction toks with
  | nil => intro fs fs1 done _ _ i hi; simp at hi
  | cons tok rest ih =>
    intro fs fs1 done hwf h i hi
    have hwf1 : ∀ t ∈ done ++ [tok], t ≠ [] ∧ '/' ∉ t := by
      intro t ht
      apply hwf t
      rcases List.mem_append.mp ht with ht | ht
      · exact List.mem_append_left _ ht
      · have htt : t = tok := by simpa using ht
        exact List.mem_append_right _ (by simp [htt])
    have hwf2 : ∀ t ∈ (done ++ [tok]) ++ rest, t ≠ [] ∧ '/' ∉ t := by
      intro t ht
      exact hwf t (by simpa using ht)
    unfold Server.ensure_loop_env at h
    simp only at h
    rw [← path_of_tokens_snoc] at h
    split_ifs at h with hlen
    rw [Server.stat_path_of_tokens fs a _ hwf1] at h
    -- the state from which the rest of the tokens is processed
    have key : ∃ fs2 : Server.FS,
        Server.ensure_loop_env denied fs2 (path_of_tokens a (done ++ [tok])) rest = some (1, fs1) ∧
        fs2.lookup ⟨a, done ++ [tok]⟩ = some Server.Kind.dir := by
      cases hst : fs.lookup ⟨a, done ++ [tok]⟩ with
      | none =>
        rw [hst] at h
        simp only at h
        cases hmk : fs.mkdir_env denied (path_of_tokens a (done ++ [tok])) with
        | none =>
          rw [hmk] at h
          simp at h
        | some fs2 =>
          rw [hmk] at h
          have hsp := (Server.mkdir_spec fs fs2 _ (Server.mkdir_env_some _ _ _ _ hmk)).2
          rw [Server.stat_path_of_tokens fs2 a _ hwf1] at hsp
          exact ⟨fs2, h, hsp⟩
      | some kd =>
        rw [hst] at h
        simp only at h
        split_ifs at h with hk
        · subst hk
          exact ⟨fs, h, hst⟩
        · simp at h
    obtain ⟨fs2, hrest, hdir⟩ := key
    cases i with
    | zero =>
      have := Server.ensure_loop_env_preserves denied rest fs2 fs1 _ 1 hrest _ _ hdir
      simpa using this
    | succ i =>
      have hi' : i < rest.length := by simpa using hi
      have := ih fs2 fs1 (done ++ [tok]) hwf2 hrest i hi'
      simpa using this

theorem Server.ensure_directory_exists_env_eq (denied : Server.FPath → Bool)
    (fs : Server.FS) (dirpath : List Char) :
    Server.ensure_directory_exists_env denied fs dirpath =
      Server.ensure_loop_env denied fs
        (path_of_tokens (decide (dirpath.head? = some '/')) []) (Server.strtok_all dirpath) := by
  unfold Server.ensure_directory_exists_env
  by_cases h : dirpath.head? = some '/' <;> simp [h, path_of_tokens]

theorem Server.strtok_all_split (pre suf : List Char)
    (hb : suf = [] ∨ suf.head? = some '/' ∨ pre.getLast? = some '/') :
    Server.strtok_all (pre ++ suf) = Server.strtok_all pre ++ Server.strtok_all suf := by
  rcases hb with h | h | h
  · subst h
    simp [Server.strtok_all, Server.strtok_from]
  · cases suf with
    | nil => simp at h
    | cons c cs =>
      have hc : c = '/' := by simpa using h
      subst hc
      unfold Server.strtok_all
      rw [Server.strtok_from_append_slash]
      simp [Server.strtok_from]
  · rcases List.eq_nil_or_concat pre with hnil | ⟨p0, c, rfl⟩
    · subst hnil
      simp at h
    · rw [List.concat_eq_append] at h ⊢
      have hc : c = '/' := by simpa using h
      subst hc
      unfold Server.strtok_all
      rw [List.append_assoc, List.singleton_append, Server.strtok_from_append_slash,
        Server.strtok_from_append_slash]
      simp [Server.strtok_from]

/-- C11: when `ensure_directory_exists` returns 1, every segment prefix of the
path, top-down, is a directory afterwards (as a list of tokens and as a prefix
of the string that ends at a separator), and every entry that existed before
the call is still there with its kind. -/
theorem ensure_directory_exists_postcondition (fs fs1 : Server.FS) (dirpath : List Char)
    (h : Server.ensure_directory_exists fs dirpath = some (1, fs1)) :
    (∀ i, i < (Server.strtok_all dirpath).length →
      fs1.lookup ⟨decide (dirpath.head? = some '/'), (Server.strtok_all dirpath).take (i + 1)⟩ =
        some Server.Kind.dir) ∧
    (∀ pre suf, dirpath = pre ++ suf →
      (suf = [] ∨ suf.head? = some '/' ∨ pre.getLast? = some '/') →
      fs1.stat pre = some Server.Kind.dir) ∧
    (∀ p k, fs.lookup p = some k → fs1.lookup p = some k) := by
  rw [← Server.ensure_directory_exists_env_false, Server.ensure_directory_exists_env_eq] at h
  have hwf : ∀ t ∈ [] ++ Server.strtok_all dirpath, t ≠ [] ∧ '/' ∉ t := by
    simpa using Server.strtok_all_wf dirpath
  have hdirs := Server.ensure_loop_env_dirs _ _ _ fs fs1 [] hwf h
  simp only [List.nil_append] at hdirs
  refine ⟨hdirs, ?_, Server.ensure_loop_env_preserves _ _ fs fs1 _ 1 h⟩
  intro pre suf hsplit hb
  have htoks := Server.strtok_all_split pre suf hb
  rw [← hsplit] at htoks
  unfold Server.FS.stat Server.resolve
  by_cases hnil : Server.strtok_all pre = []
  · simp [Server.FS.lookup, hnil]
  · have hpre : pre ≠ [] := by
      intro e
      apply hnil
      simp [e, Server.strtok_all, Server.strtok_from]
    have hhead : pre.head? = dirpath.head? := by
      cases pre with
      | nil => exact absurd rfl hpre
      | cons c cs => simp [hsplit]
    have hpos : 0 < (Server.strtok_all pre).length := List.length_pos.mpr hnil
    have hlt : (Server.strtok_all pre).length - 1 < (Server.strtok_all dirpath).length := by
      rw [htoks, List.length_append]
      omega
    have htake : (Server.strtok_all dirpath).take ((Server.strtok_all pre).length - 1 + 1) =
        Server.strtok_all pre := by
      rw [htoks, Nat.sub_add_cancel hpos, List.take_left']
      rfl
    have := hdirs _ hlt
    rw [htake] at this
    rw [hhead]
    exact this

/-- C11 at `/srv/sub/dir` on a file system that holds one file elsewhere. -/
theorem ensure_directory_exists_postcondition_witness :
    ∃ fs1 : Server.FS,
      Server.ensure_directory_exists
        (fun p => if p = ⟨true, [['f']]⟩ then some Server.Kind.file else none)
        "/srv/sub/dir".toList = some (1, fs1) ∧
      fs1.stat "/srv".toList = some Server.Kind.dir ∧
      fs1.stat "/srv/sub".toList = some Server.Kind.dir ∧
      fs1.stat "/srv/sub/dir".toList = some Server.Kind.dir ∧
      fs1.lookup ⟨true, [['f']]⟩ = some Server.Kind.file :=
  have h : ∃ fs1 : Server.FS,
      Server.ensure_directory_exists
        (fun p => if p = ⟨true, [['f']]⟩ then some Server.Kind.file else none)
        "/srv/sub/dir".toList = some (1, fs1) := ⟨_, rfl⟩
  h.elim fun fs1 h1 =>
    have post := ensure_directory_exists_postcondition _ fs1 _ h1
    ⟨fs1, h1,
      post.2.1 "/srv".toList "/sub/dir".toList (by decide) (Or.inr (Or.inl (by decide))),
      post.2.1 "/srv/sub".toList "/dir".toList (by decide) (Or.inr (Or.inl (by decide))),
      post.2.1 "/srv/sub/dir".toList [] (by decide) (Or.inl rfl),
      post.2.2 ⟨true, [['f']]⟩ Server.Kind.file (by decide)⟩

theorem Server.strtok_from_length (s : List Char) :
    ∀ acc, ((Server.strtok_from acc s).map (fun t => t ++ ['/'])).flatten.length ≤
      acc.length + s.length + 1 := by
  induction s with
  | nil =>
    intro acc
    by_cases h : acc = [] <;> simp [Server.strtok_from, h]
  | cons c cs ih =>
    intro acc
    by_cases hc : c = '/'
    · by_cases h : acc = []
      · have := ih []
        simp only [Server.strtok_from, hc, h, if_true, List.length_nil, List.length_cons] at this ⊢
        omega
      · have := ih []
        simp only [Server.strtok_from, hc, h, if_true, if_false, List.map_cons,
          List.flatten_cons, List.length_append, List.length_cons, List.length_nil] at this ⊢
        omega
    · have := ih (acc ++ [c])
      simp only [Server.strtok_from, hc, if_false, List.length_append, List.length_cons,
        List.length_nil] at this ⊢
      omega

/-- The longest path the loop builds is the path with one separator added. -/
theorem Server.path_of_tokens_length_le (dirpath : List Char) :
    (path_of_tokens (decide (dirpath.head? = some '/')) (Server.strtok_all dirpath)).length ≤
      dirpath.length + 1 := by
  cases dirpath with
  | nil => simp [path_of_tokens, Server.strtok_all, Server.strtok_from]
  | cons c cs =>
    by_cases hc : c = '/'
    · have := Server.strtok_from_length cs []
      simp only [List.length_nil] at this
      simp only [path_of_tokens, Server.strtok_all, Server.strtok_from, hc, List.head?_cons,
        decide_True, if_true, List.length_append, List.length_cons, List.length_nil]
      omega
    · have := Server.strtok_from_length (c :: cs) []
      have hne : ¬ (some c = some '/') := by simpa using hc
      simp only [List.length_nil, List.length_cons] at this
      simp only [path_of_tokens, Server.strtok_all, List.head?_cons, hne, decide_False,
        List.length_append, List.length_cons, List.length_nil]
      simp only [Bool.false_eq_true, if_false, List.length_nil]
      omega

/-- A blocked segment makes the loop return 0, and what the loop has changed
by then lies strictly above that segment. -/
theorem Server.ensure_loop_env_blocked (denied : Server.FPath → Bool) (a : Bool)
    (toks : List (List Char)) :
    ∀ (fs : Server.FS) (done : List (List Char)) (i : Nat),
      (∀ t ∈ done ++ toks, t ≠ [] ∧ '/' ∉ t) →
      (path_of_tokens a (done ++ toks)).length < PATH_MAX →
      i < toks.length →
      Server.blocked denied fs ⟨a, done ++ toks.take (i + 1)⟩ →
      ∃ fs1 : Server.FS,
        Server.ensure_loop_env denied fs (path_of_tokens a done) toks = some (0, fs1) ∧
        ∀ p, fs1 p ≠ fs p → ∃ j, j < i ∧ p = ⟨a, done ++ toks.take (j + 1)⟩ := by
  induction toks with
  | nil => intro fs done i _ _ hi; simp at hi
  | cons tok rest ih =>
    intro fs done i hwf hfit hi hb
    have hwf1 : ∀ t ∈ done ++ [tok], t ≠ [] ∧ '/' ∉ t := by
      intro t ht
      apply hwf t
      rcases List.mem_append.mp ht with ht | ht
      · exact List.mem_append_left _ ht
      · have htt : t = tok := by simpa using ht
        exact List.mem_append_right _ (by simp [htt])
    have hwf2 : ∀ t ∈ (done ++ [tok]) ++ rest, t ≠ [] ∧ '/' ∉ t := by
      intro t ht
      exact hwf t (by simpa using ht)
    have hfit2 : (path_of_tokens a ((done ++ [tok]) ++ rest)).length < PATH_MAX := by
      simpa using hfit
    have hlen : ¬ PATH_MAX ≤ (path_of_tokens a (done ++ [tok])).length := by
      rw [path_of_tokens_append a (done ++ [tok]) rest, List.length_append] at hfit2
      omega
    unfold Server.ensure_loop_env
    simp only
    rw [← path_of_tokens_snoc, if_neg hlen, Server.stat_path_of_tokens fs a _ hwf1]
    cases i with
    | zero =>
      have hb0 : Server.blocked denied fs ⟨a, done ++ [tok]⟩ := by simpa using hb
      rcases hb0 with hfile | ⟨hnone, hden⟩
      · rw [hfile]
        exact ⟨fs, by simp, fun p hp => absurd rfl hp⟩
      · rw [hnone]
        have hmk : fs.mkdir_env denied (path_of_tokens a (done ++ [tok])) = none := by
          unfold Server.FS.mkdir_env
          rw [Server.resolve_path_of_tokens a _ hwf1]
          simp [hden]
        simp only [hmk]
        exact ⟨fs, rfl, fun p hp => absurd rfl hp⟩
    | succ i =>
      have hi' : i < rest.length := by simpa using hi
      have hb' : Server.blocked denied fs ⟨a, (done ++ [tok]) ++ rest.take (i + 1)⟩ := by
        simpa using hb
      have shift : ∀ (fs1 : Server.FS) (j : Nat) (q : Server.FPath), j < i →
          q = ⟨a, (done ++ [tok]) ++ rest.take (j + 1)⟩ →
          ∃ j', j' < i + 1 ∧ q = ⟨a, done ++ (tok :: rest).take (j' + 1)⟩ := by
        intro _ j q hj hq
        exact ⟨j + 1, by omega, by simp [hq]⟩
      cases hst : fs.lookup ⟨a, done ++ [tok]⟩ with
      | none =>
        simp only
        cases hmk : fs.mkdir_env denied (path_of_tokens a (done ++ [tok])) with
        | none => exact ⟨fs, rfl, fun p hp => absurd rfl hp⟩
        | some fs2 =>
          simp only
          have hfs2 := (Server.mkdir_eq fs fs2 _ (Server.mkdir_env_some _ _ _ _ hmk)).1
          rw [Server.resolve_path_of_tokens a _ hwf1] at hfs2
          have hne : (⟨a, (done ++ [tok]) ++ rest.take (i + 1)⟩ : Server.FPath) ≠
              ⟨a, done ++ [tok]⟩ := by
            intro e
            have hl := congrArg (fun q => q.segs.length) e
            simp only [List.length_append, List.length_take, List.length_cons,
              List.length_nil] at hl
            omega
          have hlook : fs2.lookup ⟨a, (done ++ [tok]) ++ rest.take (i + 1)⟩ =
              fs.lookup ⟨a, (done ++ [tok]) ++ rest.take (i + 1)⟩ := by
            unfold Server.FS.lookup
            rw [hfs2]
            simp only [hne, if_false]
          have hb2 : Server.blocked denied fs2 ⟨a, (done ++ [tok]) ++ rest.take (i + 1)⟩ := by
            unfold Server.blocked at hb' ⊢
            rw [hlook]
            exact hb'
          obtain ⟨fs1, hres, hframe⟩ := ih fs2 (done ++ [tok]) i hwf2 hfit2 hi' hb2
          refine ⟨fs1, hres, ?_⟩
          intro p hp
          by_cases hp2 : fs1 p = fs2 p
          · have hp3 : fs2 p ≠ fs p := fun e => hp (hp2.trans e)
            have hpk : p = ⟨a, done ++ [tok]⟩ := by
              by_contra hcon
              apply hp3
              rw [hfs2]
              simp only [hcon, if_false]
            exact ⟨0, by omega, by simp [hpk]⟩
          · obtain ⟨j, hj, hpj⟩ := hframe p hp2
            exact shift fs1 j p hj hpj
      | some kd =>
        simp only
        by_cases hk : kd = Server.Kind.dir
        · simp only [hk, if_true]
          obtain ⟨fs1, hres, hframe⟩ := ih fs (done ++ [tok]) i hwf2 hfit2 hi' hb'
          refine ⟨fs1, hres, ?_⟩
          intro p hp
          obtain ⟨j, hj, hpj⟩ := hframe p hp
          exact shift fs1 j p hj hpj
        · simp only [hk, if_false]
          exact ⟨fs, rfl, fun p hp => absurd rfl hp⟩

/-- C12: for a path that fits `current_path`, when some segment prefix exists
but is not a directory, `ensure_directory_exists` returns 0 and changes nothing
at or below that segment; it returns 0 as well when the creation of an absent
segment is refused. The `mkdir` of the statement may fail for reasons outside
the map; `ensure_directory_exists` is the case where it never does. -/
theorem ensure_directory_exists_fails (denied : Server.FPath → Bool) (fs : Server.FS)
    (dirpath : List Char) (i : Nat) (hfit : dirpath.length + 1 < PATH_MAX)
    (hi : i < (Server.strtok_all dirpath).length) :
    (Server.ensure_directory_exists fs dirpath =
      Server.ensure_directory_exists_env (fun _ => false) fs dirpath) ∧
    (fs.lookup ⟨decide (dirpath.head? = some '/'), (Server.strtok_all dirpath).take (i + 1)⟩ =
        some Server.Kind.file →
      ∃ fs1 : Server.FS,
        Server.ensure_directory_exists_env denied fs dirpath = some (0, fs1) ∧
        ∀ p : Server.FPath, (Server.strtok_all dirpath).take (i + 1) <+: p.segs →
          fs1 p = fs p) ∧
    (fs.lookup ⟨decide (dirpath.head? = some '/'), (Server.strtok_all dirpath).take (i + 1)⟩ =
        none →
      denied ⟨decide (dirpath.head? = some '/'), (Server.strtok_all dirpath).take (i + 1)⟩ =
        true →
      ∃ fs1 : Server.FS,
        Server.ensure_directory_exists_env denied fs dirpath = some (0, fs1) ∧
        ∀ p : Server.FPath, (Server.strtok_all dirpath).take (i + 1) <+: p.segs →
          fs1 p = fs p) := by
  have hwf : ∀ t ∈ [] ++ Server.strtok_all dirpath, t ≠ [] ∧ '/' ∉ t := by
    simpa using Server.strtok_all_wf dirpath
  have hlen : (path_of_tokens (decide (dirpath.head? = some '/'))
      ([] ++ Server.strtok_all dirpath)).length < PATH_MAX := by
    have := Server.path_of_tokens_length_le dirpath
    simp only [List.nil_append]
    omega
  have main : Server.blocked denied fs
      ⟨decide (dirpath.head? = some '/'), (Server.strtok_all dirpath).take (i + 1)⟩ →
      ∃ fs1 : Server.FS,
        Server.ensure_directory_exists_env denied fs dirpath = some (0, fs1) ∧
        ∀ p : Server.FPath, (Server.strtok_all dirpath).take (i + 1) <+: p.segs →
          fs1 p = fs p := by
    intro hb
    obtain ⟨fs1, hres, hframe⟩ :=
      Server.ensure_loop_env_blocked denied _ _ fs [] i hwf hlen hi (by simpa using hb)
    rw [Server.ensure_directory_exists_env_eq]
    refine ⟨fs1, hres, ?_⟩
    intro p hpre
    by_contra hne
    obtain ⟨j, hj, hpj⟩ := hframe p hne
    have hl := hpre.length_le
    rw [hpj] at hl
    simp only [List.nil_append, List.length_take] at hl
    omega
  exact ⟨(Server.ensure_directory_exists_env_false fs dirpath).symm,
    fun hfile => main (Or.inl hfile), fun hnone hden => main (Or.inr ⟨hnone, hden⟩)⟩

/-- C12 at `sub/dir`: with `sub` a regular file, and with the creation of `sub`
refused on an empty file system. -/
theorem ensure_directory_exists_fails_witness :
    (∃ fs1 : Server.FS,
      Server.ensure_directory_exists_env (fun _ => false)
        (fun p => if p = ⟨false, [['s', 'u', 'b']]⟩ then some Server.Kind.file else none)
        "sub/dir".toList = some (0, fs1) ∧
      fs1 ⟨false, [['s', 'u', 'b'], ['d', 'i', 'r']]⟩ = none) ∧
    (∃ fs1 : Server.FS,
      Server.ensure_directory_exists_env
        (fun p => decide (p = ⟨false, [['s', 'u', 'b']]⟩)) (fun _ => none)
        "sub/dir".toList = some (0, fs1) ∧
      fs1 ⟨false, [['s', 'u', 'b']]⟩ = none) :=
  have h1 := (ensure_directory_exists_fails (fun _ => false)
    (fun p => if p = ⟨false, [['s', 'u', 'b']]⟩ then some Server.Kind.file else none)
    "sub/dir".toList 0 (by decide) (by decide)).2.1 (by decide)
  have h2 := (ensure_directory_exists_fails
    (fun p => decide (p = ⟨false, [['s', 'u', 'b']]⟩)) (fun _ => none)
    "sub/dir".toList 0 (by decide) (by decide)).2.2 (by decide) (by decide)
  ⟨h1.imp fun _ h => ⟨h.1, (h.2 ⟨false, [['s', 'u', 'b'], ['d', 'i', 'r']]⟩
      (by decide)).trans (by decide)⟩,
    h2.imp fun _ h => ⟨h.1, (h.2 ⟨false, [['s', 'u', 'b']]⟩ (by decide)).trans (by decide)⟩⟩

/-! ## The receive loop and the send loop in general -/

theorem RecvResult.data_length_le (cap : Nat) (r : RecvResult) :
    (r.data cap).length ≤ cap := by
  cases r with
  | bytes bs => simp [RecvResult.data]
  | error => simp [RecvResult.data]

/-- With complete writes the loop appends to the file exactly the chunks
received before the first receive that returns 0 or fails. -/
theorem Server.write_loop_received (writes : Nat → Option Nat)
    (hw : ∀ k, complete (writes k) = true) (rs : List RecvResult) :
    ∀ (b k : Nat) (content : List Char),
      (Server.write_loop writes rs b k content).file =
        some (content ++ (received_chunks rs).flatten) := by
  induction rs with
  | nil => intro b k content; simp [Server.write_loop, received_chunks]
  | cons r rs ih =>
    intro b k content
    obtain ⟨n, hn, hle⟩ := complete_eq _ (hw k)
    have htake : (r.data BUFFER_SIZE).take n = r.data BUFFER_SIZE :=
      List.take_of_length_le (le_trans (RecvResult.data_length_le _ r) hle)
    unfold Server.write_loop
    by_cases hpos : 0 < r.count BUFFER_SIZE
    · simp only [hpos, if_true, Nat.not_lt_zero, if_false, hn, htake, ih, received_chunks,
        List.flatten_cons, List.append_assoc]
    · simp only [hpos, if_false, received_chunks]
      split_ifs <;> simp

/-- C13, as stated, fails: with free space left and no `write` failing, writes
that store one byte of the two they are given (their count is not looked at)
leave the file `ac` where the chunks received are `ab` and `cd`, and the
function ends normally (both copies). -/
theorem write_file_in_dir_short_write :
    Server.write_file_in_dir
        ⟨some ['o', 'l', 'd'], true, 100, [.bytes ['a', 'b'], .bytes ['c', 'd']],
          fun _ => some 1⟩ =
      ⟨.finished, some ['a', 'c'], []⟩ ∧
    Client.write_file_in_dir
        ⟨some ['o', 'l', 'd'], true, 100, [.bytes ['a', 'b'], .bytes ['c', 'd']],
          fun _ => some 1⟩ =
      ⟨.finished, some ['a', 'c'], []⟩ ∧
    (received_chunks [.bytes ['a', 'b'], .bytes ['c', 'd']]).flatten = ['a', 'b', 'c', 'd'] ∧
    ['a', 'c'] ≠ ['a', 'b', 'c', 'd'] :=
  ⟨rfl, rfl, rfl, by decide⟩

/-- C13, amended: when the destination opens, the free space is positive and
not exhausted by the stream and every write stores the whole chunk it is
given, the file ends up holding exactly the chunks received before the first
receive that returns 0 or fails, in order, whatever it held before (both copies
of the function). -/
theorem write_file_in_dir_content (e : Server.WriteEnv) (hopen : e.open_ok = true)
    (havail : e.avail ≠ 0)
    (_hbudget : (received_chunks e.recvs).flatten.length ≤ e.avail)
    (hw : ∀ k, complete (e.writes k) = true) :
    (Server.write_file_in_dir e).file = some (received_chunks e.recvs).flatten ∧
    (Client.write_file_in_dir e).file = some (received_chunks e.recvs).flatten := by
  have h : (Server.write_file_in_dir e).file = some (received_chunks e.recvs).flatten := by
    unfold Server.write_file_in_dir
    simp only [hopen, Bool.true_eq_false, if_false, havail]
    simpa using Server.write_loop_received e.writes hw e.recvs e.avail 0 []
  exact ⟨h, by rw [Client.write_file_in_dir_eq]; exact h⟩

/-- The amended C13 at two chunks followed by a failed receive and a chunk never
read, on a file that held other bytes. -/
theorem write_file_in_dir_content_witness :
    (Server.write_file_in_dir
      ⟨some ['o', 'l', 'd'], true, 100,
        [.bytes ['a', 'b'], .bytes ['c'], .error, .bytes ['d']], fun _ => some 1024⟩).file =
      some ['a', 'b', 'c'] :=
  ((write_file_in_dir_content
    ⟨some ['o', 'l', 'd'], true, 100,
      [.bytes ['a', 'b'], .bytes ['c'], .error, .bytes ['d']], fun _ => some 1024⟩
    rfl (by decide) (by decide) (fun _ => rfl)).1).trans (by decide)

/-- C14: for every file content and every run of `send` results that each take
at least one byte (and at most what is asked), the server `send_data` ends,
within `2 * size + 1` loop tests, and the bytes handed to the connection are
exactly the content of the file, in order. -/
theorem server_send_data_delivers_file (file : List Char) (sends : Nat → Option Nat)
    (fuel : Nat) (hs : ∀ k, progresses (sends k) = true)
    (hfuel : 2 * file.length + 1 ≤ fuel) :
    Server.send_data sends fuel file = some ⟨.finished, file⟩ := by
  have h := Server.send_data_loop_progress sends hs fuel 0 [] file []
    (by simp only [List.length_nil]; omega)
  simpa [Server.send_data] using h

/-- C14 at a file of 5 bytes sent two bytes at most at a time, then one. -/
theorem server_send_data_delivers_file_witness :
    Server.send_data (fun k => if k < 2 then some 2 else some 1) 11 "hello".toList =
      some ⟨.finished, "hello".toList⟩ :=
  server_send_data_delivers_file "hello".toList (fun k => if k < 2 then some 2 else some 1) 11
    (fun k => by by_cases h : k < 2 <;> simp [h, progresses]) (by decide)

/-- C15: when the free-space query fails, `available_bytes` returns 0 and
`write_file_in_dir` consumes no receive and writes nothing: the destination,
if it could be opened, is left empty (both copies of the function). -/
theorem write_file_in_dir_space_unknown (e : Server.WriteEnv)
    (h : e.avail = available_bytes none) :
    (Server.write_file_in_dir e).unread = e.recvs ∧
    (Server.write_file_in_dir e).status ≠ Server.WriteStatus.finished ∧
    (Server.write_file_in_dir e).file = (if e.open_ok = true then some [] else e.old) ∧
    Client.write_file_in_dir e = Server.write_file_in_dir e := by
  have h0 : e.avail = 0 := h
  refine ⟨?_, ?_, ?_, Client.write_file_in_dir_eq e⟩ <;>
    · unfold Server.write_file_in_dir
      cases e.open_ok <;> simp [h0]

/-- C15 at a connection with bytes ready. -/
theorem write_file_in_dir_space_unknown_witness :
    (Server.write_file_in_dir
      ⟨some ['o', 'l', 'd'], true, 0, [.bytes ['a', 'b']], fun _ => some 1024⟩).unread =
      [.bytes ['a', 'b']] ∧
    (Server.write_file_in_dir
      ⟨some ['o', 'l', 'd'], true, 0, [.bytes ['a', 'b']], fun _ => some 1024⟩).file =
      some [] :=
  have h := write_file_in_dir_space_unknown
    ⟨some ['o', 'l', 'd'], true, 0, [.bytes ['a', 'b']], fun _ => some 1024⟩ rfl
  ⟨h.1, h.2.2.1⟩

/-! ## The write handler -/

theorem Server.ensure_loop_env_ret (denied : Server.FPath → Bool) (toks : List (List Char)) :
    ∀ (fs fs1 : Server.FS) (cur : List Char) (r : Int),
      Server.ensure_loop_env denied fs cur toks = some (r, fs1) → r = 0 ∨ r = 1 := by
  induction toks with
  | nil =>
    intro fs fs1 cur r h
    simp only [Server.ensure_loop_env, Option.some.injEq, Prod.mk.injEq] at h
    exact Or.inr h.1.symm
  | cons tok rest ih =>
    intro fs fs1 cur r h
    unfold Server.ensure_loop_env at h
    simp only at h
    split_ifs at h with hlen
    cases hst : fs.stat (cur ++ tok ++ ['/']) with
    | none =>
      rw [hst] at h
      simp only at h
      cases hmk : fs.mkdir_env denied (cur ++ tok ++ ['/']) with
      | none =>
        rw [hmk] at h
        simp only [Option.some.injEq, Prod.mk.injEq] at h
        exact Or.inl h.1.symm
      | some fs2 =>
        rw [hmk] at h
        exact ih fs2 fs1 _ r h
    | some kd =>
      rw [hst] at h
      simp only at h
      split_ifs at h with hk
      · exact ih fs fs1 _ r h
      · simp only [Option.some.injEq, Prod.mk.injEq] at h
        exact Or.inl h.1.symm

/-- What `write_file_at` leaves outside the file it is given. -/
theorem Server.write_file_at_frame (d : Server.Disk) (path : List Char)
    (io : Server.TransferIO) (q : Server.FPath) (hq : q ≠ Server.resolve path) :
    (Server.write_file_at d path io).1.content q = d.content q ∧
    (Server.write_file_at d path io).1.fs q = d.fs q := by
  unfold Server.write_file_at
  simp only
  split_ifs <;> simp [hq]

/-- What `write_file_at` leaves at the file it is given, once it is opened. -/
theorem Server.write_file_at_target (d : Server.Disk) (path : List Char)
    (io : Server.TransferIO)
    (hopen : (Server.write_file_at d path io).2.status ≠ Server.WriteStatus.open_failed) :
    (Server.write_file_at d path io).1.fs (Server.resolve path) = some Server.Kind.file ∧
    (Server.write_file_at d path io).1.content (Server.resolve path) =
      (Server.write_file_at d path io).2.file.getD [] := by
  unfold Server.write_file_at at hopen ⊢
  simp only at hopen ⊢
  by_cases ho : (!io.open_denied && d.fs.can_create path) = true
  · simp [ho]
  · exfalso
    apply hopen
    have hf : (!io.open_denied && d.fs.can_create path) = false := by
      simpa using ho
    simp [hf, Server.write_file_in_dir]

/-- C16: in a write session the handler is called on
`construct_full_path(root, relative)`; `handle_write` streams into the file at
that path, and only there, after `ensure_directory_exists` has returned 1 on
the part before the last separator; when it returns 0 no file is opened or
written. -/
theorem handle_write_after_directories (denied : Server.FPath → Bool) (d : Server.Disk)
    (root relative fullpath : List Char) (io : Server.TransferIO)
    (hpath : Server.construct_full_path (some root) (some relative) = .path fullpath) :
    (∀ uid path_recv confirm_send buf, Server.receive_path path_recv = some buf →
      c_string buf = relative → 0 < confirm_send →
      Server.handle_client ⟨uid, some root, .bytes ['w'], path_recv, confirm_send⟩ =
        [Server.Event.send_byte 'T', Server.Event.mutex_lock,
          Server.Event.handle_write fullpath, Server.Event.mutex_unlock,
          Server.Event.close_socket, Server.Event.remove_client uid]) ∧
    (∀ fs1, Server.ensure_directory_exists_env denied d.fs
        (Server.divide_dirpath_from_filename fullpath).1 = some (1, fs1) →
      Server.handle_write denied d fullpath io =
        some ((Server.write_file_at ⟨fs1, d.content⟩ fullpath io).1,
          some (Server.write_file_at ⟨fs1, d.content⟩ fullpath io).2)) ∧
    (∀ d2 r, Server.handle_write denied d fullpath io = some (d2, some r) →
      ∃ fs1, Server.ensure_directory_exists_env denied d.fs
          (Server.divide_dirpath_from_filename fullpath).1 = some (1, fs1) ∧
        Server.write_file_at ⟨fs1, d.content⟩ fullpath io = (d2, r)) ∧
    (∀ fs1, Server.ensure_directory_exists_env denied d.fs
        (Server.divide_dirpath_from_filename fullpath).1 = some (0, fs1) →
      Server.handle_write denied d fullpath io = some (⟨fs1, d.content⟩, none)) ∧
    (∀ (d1 : Server.Disk) (q : Server.FPath), q ≠ Server.resolve fullpath →
      (Server.write_file_at d1 fullpath io).1.content q = d1.content q ∧
      (Server.write_file_at d1 fullpath io).1.fs q = d1.fs q) ∧
    (∀ d1 : Server.Disk,
      (Server.write_file_at d1 fullpath io).2.status ≠ Server.WriteStatus.open_failed →
      (Server.write_file_at d1 fullpath io).1.fs (Server.resolve fullpath) =
        some Server.Kind.file ∧
      (Server.write_file_at d1 fullpath io).1.content (Server.resolve fullpath) =
        (Server.write_file_at d1 fullpath io).2.file.getD []) := by
  refine ⟨?_, ?_, ?_, ?_, ?_, ?_⟩
  · intro uid path_recv confirm_send buf hbuf hrel hsend
    have hs : ¬ confirm_send ≤ 0 := not_le.mpr hsend
    unfold Server.handle_client
    simp [RecvResult.count, RecvResult.data, hbuf, hrel, hs, hpath, Server.cleanup,
      Server.dispatch]
  · intro fs1 h
    unfold Server.handle_write
    simp [h]
  · intro d2 r h
    unfold Server.handle_write at h
    simp only at h
    cases hens : Server.ensure_directory_exists_env denied d.fs
        (Server.divide_dirpath_from_filename fullpath).1 with
    | none => simp [hens] at h
    | some res =>
      obtain ⟨is_dir, fs1⟩ := res
      rw [hens] at h
      simp only at h
      by_cases h0 : is_dir = 0
      · simp [h0] at h
      · simp only [ne_eq, h0, not_false_eq_true, if_true, Option.some.injEq,
          Prod.mk.injEq] at h
        have hret : is_dir = 0 ∨ is_dir = 1 := by
          rw [Server.ensure_directory_exists_env_eq] at hens
          exact Server.ensure_loop_env_ret _ _ _ _ _ _ hens
        have h1 : is_dir = 1 := hret.resolve_left h0
        subst h1
        exact ⟨fs1, rfl, Prod.ext h.1 h.2⟩
  · intro fs1 h
    unfold Server.handle_write
    simp [h]
  · intro d1 q hq
    exact Server.write_file_at_frame d1 fullpath io q hq
  · intro d1 hopen
    exact Server.write_file_at_target d1 fullpath io hopen

theorem Server.write_file_at_lookup (d : Server.Disk) (path : List Char)
    (io : Server.TransferIO) (q : Server.FPath) (hq : q ≠ Server.resolve path) :
    (Server.write_file_at d path io).1.fs.lookup q = d.fs.lookup q := by
  unfold Server.FS.lookup
  rw [(Server.write_file_at_frame d path io q hq).2]

/-- The run of `write_file_in_dir` inside `write_file_at` when the file opens,
space is known and the chunks are written whole. -/
theorem Server.write_file_at_chunks (d : Server.Disk) (path : List Char)
    (io : Server.TransferIO) (chunks : List (List Char))
    (hden : io.open_denied = false) (hcan : d.fs.can_create path = true)
    (havail : io.avail ≠ 0) (hw : ∀ k, complete (io.writes k) = true)
    (hrecv : io.recvs = chunks.map RecvResult.bytes)
    (hc : ∀ c ∈ chunks, c ≠ [] ∧ c.length ≤ BUFFER_SIZE) :
    (Server.write_file_at d path io).2 = ⟨.finished, some chunks.flatten, []⟩ := by
  have h := Server.write_loop_chunks io.writes hw chunks hc io.avail 0 []
  unfold Server.write_file_at
  simp [hden, hcan, Server.write_file_in_dir, havail, hrecv, h]

/-- C16 at the root `/srv` and the path `sub/dir/file.txt` on an empty disk,
with a stream of 2050 bytes received as 1024, 1024 and 2 bytes. -/
theorem handle_write_after_directories_witness :
    Server.construct_full_path (some "/srv".toList) (some "sub/dir/file.txt".toList) =
      .path "/srv/sub/dir/file.txt".toList ∧
    ∃ d2 r,
      Server.handle_write (fun _ => false) ⟨fun _ => none, fun _ => []⟩
        "/srv/sub/dir/file.txt".toList
        ⟨false, 4096,
          [.bytes (List.replicate 1024 'a'), .bytes (List.replicate 1024 'b'),
            .bytes ['c', 'd']],
          fun _ => some 1024⟩ = some (d2, some r) ∧
      d2.fs.stat "/srv".toList = some Server.Kind.dir ∧
      d2.fs.stat "/srv/sub".toList = some Server.Kind.dir ∧
      d2.fs.stat "/srv/sub/dir".toList = some Server.Kind.dir ∧
      d2.fs.stat "/srv/sub/dir/file.txt".toList = some Server.Kind.file ∧
      (d2.content (Server.resolve "/srv/sub/dir/file.txt".toList)).length = 2050 := by
  have hp : Server.construct_full_path (some "/srv".toList) (some "sub/dir/file.txt".toList) =
      .path "/srv/sub/dir/file.txt".toList := by decide
  have hspec := handle_write_after_directories (fun _ => false) ⟨fun _ => none, fun _ => []⟩
    "/srv".toList "sub/dir/file.txt".toList "/srv/sub/dir/file.txt".toList
    ⟨false, 4096,
      [.bytes (List.replicate 1024 'a'), .bytes (List.replicate 1024 'b'), .bytes ['c', 'd']],
      fun _ => some 1024⟩ hp
  have hens : ∃ fs1 : Server.FS,
      Server.ensure_directory_exists_env (fun _ => false) (fun _ => none)
        (Server.divide_dirpath_from_filename "/srv/sub/dir/file.txt".toList).1 = some (1, fs1) ∧
      fs1.can_create "/srv/sub/dir/file.txt".toList = true ∧
      fs1.stat "/srv".toList = some Server.Kind.dir ∧
      fs1.stat "/srv/sub".toList = some Server.Kind.dir ∧
      fs1.stat "/srv/sub/dir".toList = some Server.Kind.dir :=
    ⟨_, rfl, by decide, by decide, by decide, by decide⟩
  obtain ⟨fs1, h1, hcan, hs1, hs2, hs3⟩ := hens
  have hchunks : ∀ c ∈ [List.replicate 1024 'a', List.replicate 1024 'b', ['c', 'd']],
      c ≠ [] ∧ c.length ≤ BUFFER_SIZE := by
    intro c hc
    simp only [List.mem_cons, List.mem_singleton, List.not_mem_nil, or_false] at hc
    rcases hc with rfl | rfl | rfl
    · exact ⟨List.ne_nil_of_length_pos (by rw [List.length_replicate]; decide),
        by rw [List.length_replicate]; decide⟩
    · exact ⟨List.ne_nil_of_length_pos (by rw [List.length_replicate]; decide),
        by rw [List.length_replicate]; decide⟩
    · exact ⟨by simp, by decide⟩
  have hres := Server.write_file_at_chunks ⟨fs1, fun _ => []⟩ "/srv/sub/dir/file.txt".toList
    ⟨false, 4096,
      [.bytes (List.replicate 1024 'a'), .bytes (List.replicate 1024 'b'), .bytes ['c', 'd']],
      fun _ => some 1024⟩
    [List.replicate 1024 'a', List.replicate 1024 'b', ['c', 'd']]
    rfl hcan (by decide) (fun _ => rfl) rfl hchunks
  have htarget := hspec.2.2.2.2.2 ⟨fs1, fun _ => []⟩ (by rw [hres]; decide)
  refine ⟨hp, _, _, hspec.2.1 fs1 h1, ?_, ?_, ?_, ?_, ?_⟩
  · unfold Server.FS.stat
    rw [Server.write_file_at_lookup _ _ _ _ (by decide)]
    exact hs1
  · unfold Server.FS.stat
    rw [Server.write_file_at_lookup _ _ _ _ (by decide)]
    exact hs2
  · unfold Server.FS.stat
    rw [Server.write_file_at_lookup _ _ _ _ (by decide)]
    exact hs3
  · unfold Server.FS.stat Server.FS.lookup
    rw [htarget.1]
    decide
  · rw [htarget.2, hres]
    simp only [Option.getD_some, List.flatten_cons, List.flatten_nil, List.length_append,
      List.length_replicate, List.length_cons, List.length_nil]

/-! ## Confirmation wait, listing, registry -/

/-- C17: the client goes on to the transfer exactly when `'T'` occurs in the
bytes that arrive before the connection ends or fails; the bytes before the
first `'T'` are skipped, that `'T'` is consumed and the bytes after it are
left unread. -/
theorem await_confirmation_first_T (stream : List Char) :
    ((∃ rest, Client.await_confirmation stream = .proceed rest) ↔ 'T' ∈ stream) ∧
    (∀ skipped rest, stream = skipped ++ 'T' :: rest → 'T' ∉ skipped →
      Client.await_confirmation stream = .proceed rest) ∧
    ('T' ∉ stream → Client.await_confirmation stream = .exit_failure) := by
  have hsplit : ∀ (skipped rest : List Char), 'T' ∉ skipped →
      Client.await_confirmation (skipped ++ 'T' :: rest) = .proceed rest := by
    intro skipped rest
    induction skipped with
    | nil => intro _; simp [Client.await_confirmation]
    | cons c cs ih =>
      intro h
      have hc : c ≠ 'T' := fun e => h (by simp [e])
      have hcs : 'T' ∉ cs := fun m => h (List.mem_cons_of_mem _ m)
      simp [Client.await_confirmation, hc, ih hcs]
  have hnone : ∀ s : List Char, 'T' ∉ s → Client.await_confirmation s = .exit_failure := by
    intro s
    induction s with
    | nil => intro _; rfl
    | cons c cs ih =>
      intro h
      have hc : c ≠ 'T' := fun e => h (by simp [e])
      have hcs : 'T' ∉ cs := fun m => h (List.mem_cons_of_mem _ m)
      simp [Client.await_confirmation, hc, ih hcs]
  refine ⟨⟨?_, ?_⟩, ?_, hnone stream⟩
  · rintro ⟨rest, h⟩
    by_contra hT
    rw [hnone stream hT] at h
    cases h
  · intro hT
    obtain ⟨skipped, rest, rfl, hsk⟩ := List.eq_append_cons_of_mem hT
    exact ⟨rest, hsplit skipped rest hsk⟩
  · rintro skipped rest rfl hsk
    exact hsplit skipped rest hsk

/-- C17 at a stream with two bytes before the confirmation and data after it. -/
theorem await_confirmation_first_T_witness :
    Client.await_confirmation "xyTdaTa".toList = .proceed "daTa".toList :=
  (await_confirmation_first_T "xyTdaTa".toList).2.1 "xy".toList "daTa".toList
    (by decide) (by decide)

/-- C18 fails on the code: after the chunk `xs: cannot access` the chunk `l`
leaves `ls: cannot access` in the first 17 bytes of the buffer, so the client
aborts and does not print `l`; by the claim neither chunk begins with the error
message and both are printed. -/
theorem list_mode_stale_buffer :
    Client.list_mode (List.replicate 1024 NUL) (fun _ => some 1024)
        [.bytes "xs: cannot access".toList, .bytes ['l']] =
      ⟨.invalid_path, "xs: cannot access".toList⟩ ∧
    listed_before_error ["xs: cannot access".toList, ['l']] = "xs: cannot accessl".toList := by
  decide

theorem Server.add_client_loop_spec (cl : Server.client_t) (clients : Server.Registry) :
    ∀ (fuel i : Nat), i + fuel = Server.MAX_CLIENTS →
      (∀ j : Fin Server.MAX_CLIENTS, j.val < i → clients j ≠ none) →
      (∀ k : Fin Server.MAX_CLIENTS, clients k = none →
        (∀ j : Fin Server.MAX_CLIENTS, j < k → clients j ≠ none) →
        Server.add_client_loop cl fuel i clients = Function.update clients k (some cl)) ∧
      ((∀ k : Fin Server.MAX_CLIENTS, clients k ≠ none) →
        Server.add_client_loop cl fuel i clients = clients) := by
  intro fuel
  induction fuel with
  | zero =>
    intro i hi hocc
    refine ⟨?_, fun _ => rfl⟩
    intro k hk _
    exact absurd hk (hocc k (by have := k.isLt; omega))
  | succ fuel ih =>
    intro i hi hocc
    have hlt : i < Server.MAX_CLIENTS := by omega
    unfold Server.add_client_loop
    simp only [hlt, dif_pos]
    by_cases hfree : clients ⟨i, hlt⟩ = none
    · simp only [hfree, Option.isNone_none, if_true]
      refine ⟨?_, fun hall => absurd hfree (hall _)⟩
      intro k hk hbelow
      have hki : k = ⟨i, hlt⟩ := by
        apply Fin.ext
        simp only
        by_contra hne
        rcases Nat.lt_or_gt_of_ne hne with h | h
        · exact hocc k h hk
        · exact hbelow ⟨i, hlt⟩ (by simpa [Fin.lt_def] using h) hfree
      rw [hki]
    · have hnot : (clients ⟨i, hlt⟩).isNone = false := by
        cases hc : clients ⟨i, hlt⟩ with
        | none => exact absurd hc hfree
        | some c => rfl
      simp only [hnot, Bool.false_eq_true, if_false]
      apply ih (i + 1) (by omega)
      intro j hj
      by_cases hji : j.val = i
      · have : j = ⟨i, hlt⟩ := Fin.ext hji
        rw [this]
        exact hfree
      · exact hocc j (by omega)

/-- C20: `add_client` stores the client in the free slot of lowest index and
leaves every other slot as it was; when the ten slots are taken the registry is
left as it was. -/
theorem add_client_first_free (clients : Server.Registry) (cl : Server.client_t) :
    (∀ k : Fin Server.MAX_CLIENTS, clients k = none →
      (∀ j : Fin Server.MAX_CLIENTS, j < k → clients j ≠ none) →
      Server.add_client clients cl k = some cl ∧
      ∀ j : Fin Server.MAX_CLIENTS, j ≠ k → Server.add_client clients cl j = clients j) ∧
    ((∀ k : Fin Server.MAX_CLIENTS, clients k ≠ none) →
      Server.add_client clients cl = clients) := by
  have h := Server.add_client_loop_spec cl clients Server.MAX_CLIENTS 0 (by simp)
    (fun j hj => absurd hj (Nat.not_lt_zero _))
  constructor
  · intro k hk hbelow
    have he : Server.add_client clients cl = Function.update clients k (some cl) :=
      h.1 k hk hbelow
    rw [he]
    exact ⟨by simp, fun j hj => by simp [Function.update, hj]⟩
  · exact h.2

/-- C20 at a registry whose slots 0 and 2 are taken, and at a full registry. -/
theorem add_client_first_free_witness :
    Server.add_client
        (fun i => if i.val = 0 ∨ i.val = 2 then some ⟨0, 4, 10 + i.val⟩ else none)
        ⟨0, 5, 12⟩ ⟨1, by decide⟩ = some ⟨0, 5, 12⟩ ∧
    Server.add_client (fun i => some ⟨0, 4, 10 + i.val⟩) ⟨0, 5, 20⟩ =
      (fun i => some ⟨0, 4, 10 + i.val⟩) :=
  ⟨((add_client_first_free
      (fun i => if i.val = 0 ∨ i.val = 2 then some ⟨0, 4, 10 + i.val⟩ else none)
      ⟨0, 5, 12⟩).1 ⟨1, by decide⟩ (by decide) (by decide)).1,
    (add_client_first_free (fun i => some ⟨0, 4, 10 + i.val⟩) ⟨0, 5, 20⟩).2
      (fun k => by simp)⟩

/-! ## The registry: removal and the accept loop -/

/-- The search of `add_client` from index `i`: no slot is free and nothing
changes, or the first free slot is filled. -/
theorem Server.add_client_loop_search (cl : Server.client_t) (clients : Server.Registry) :
    ∀ (fuel i : Nat), i + fuel = Server.MAX_CLIENTS →
      (Server.add_client_loop cl fuel i clients = clients ∧
        ∀ k : Fin Server.MAX_CLIENTS, i ≤ k.val → clients k ≠ none) ∨
      (∃ k : Fin Server.MAX_CLIENTS, i ≤ k.val ∧ clients k = none ∧
        (∀ j : Fin Server.MAX_CLIENTS, i ≤ j.val → j < k → clients j ≠ none) ∧
        Server.add_client_loop cl fuel i clients = Function.update clients k (some cl)) := by
  intro fuel
  induction fuel with
  | zero =>
    intro i hi
    exact Or.inl ⟨rfl, fun k hk => absurd k.isLt (by omega)⟩
  | succ fuel ih =>
    intro i hi
    have hlt : i < Server.MAX_CLIENTS := by omega
    unfold Server.add_client_loop
    simp only [hlt, dif_pos]
    by_cases hfree : clients ⟨i, hlt⟩ = none
    · simp only [hfree, Option.isNone_none, if_true]
      refine Or.inr ⟨⟨i, hlt⟩, le_refl _, hfree, ?_, rfl⟩
      intro j hj hjk
      exact absurd hjk (by simp only [Fin.lt_def]; omega)
    · have hnot : (clients ⟨i, hlt⟩).isNone = false := by
        cases hc : clients ⟨i, hlt⟩ with
        | none => exact absurd hc hfree
        | some c => rfl
      simp only [hnot, Bool.false_eq_true, if_false]
      have hstep : ∀ j : Fin Server.MAX_CLIENTS, i ≤ j.val → ¬ i + 1 ≤ j.val →
          clients j ≠ none := by
        intro j hj hnj
        have : j = ⟨i, hlt⟩ := Fin.ext (by simp only; omega)
        rw [this]
        exact hfree
      rcases ih (i + 1) (by omega) with ⟨heq, hall⟩ | ⟨k, hk, hkfree, hmin, heq⟩
      · refine Or.inl ⟨heq, ?_⟩
        intro k hk
        by_cases hk1 : i + 1 ≤ k.val
        · exact hall k hk1
        · exact hstep k hk hk1
      · refine Or.inr ⟨k, by omega, hkfree, ?_, heq⟩
        intro j hj hjk
        by_cases hj1 : i + 1 ≤ j.val
        · exact hmin j hj1 hjk
        · exact hstep j hj hj1

/-- The search of `remove_client` from index `i`: no entry has the uid and
nothing changes, or the first slot whose entry has the uid is cleared. -/
theorem Server.remove_client_loop_search (uid : Int) (clients : Server.Registry) :
    ∀ (fuel i : Nat), i + fuel = Server.MAX_CLIENTS →
      (Server.remove_client_loop uid fuel i clients = clients ∧
        ∀ k : Fin Server.MAX_CLIENTS, i ≤ k.val → ∀ c, clients k = some c → c.uid ≠ uid) ∨
      (∃ (k : Fin Server.MAX_CLIENTS) (c : Server.client_t), i ≤ k.val ∧
        clients k = some c ∧ c.uid = uid ∧
        (∀ j : Fin Server.MAX_CLIENTS, i ≤ j.val → j < k →
          ∀ c1, clients j = some c1 → c1.uid ≠ uid) ∧
        Server.remove_client_loop uid fuel i clients = Function.update clients k none) := by
  intro fuel
  induction fuel with
  | zero =>
    intro i hi
    exact Or.inl ⟨rfl, fun k hk => absurd k.isLt (by omega)⟩
  | succ fuel ih =>
    intro i hi
    have hlt : i < Server.MAX_CLIENTS := by omega
    -- what the induction hypothesis gives once slot `i` is known not to match
    have next : (∀ c1, clients ⟨i, hlt⟩ = some c1 → c1.uid ≠ uid) →
        (Server.remove_client_loop uid fuel (i + 1) clients = clients ∧
          ∀ k : Fin Server.MAX_CLIENTS, i ≤ k.val → ∀ c, clients k = some c → c.uid ≠ uid) ∨
        (∃ (k : Fin Server.MAX_CLIENTS) (c : Server.client_t), i ≤ k.val ∧
          clients k = some c ∧ c.uid = uid ∧
          (∀ j : Fin Server.MAX_CLIENTS, i ≤ j.val → j < k →
            ∀ c1, clients j = some c1 → c1.uid ≠ uid) ∧
          Server.remove_client_loop uid fuel (i + 1) clients =
            Function.update clients k none) := by
      intro hi0
      have hstep : ∀ j : Fin Server.MAX_CLIENTS, i ≤ j.val → ¬ i + 1 ≤ j.val →
          ∀ c1, clients j = some c1 → c1.uid ≠ uid := by
        intro j hj hnj c1 hc1
        have : j = ⟨i, hlt⟩ := Fin.ext (by simp only; omega)
        rw [this] at hc1
        exact hi0 c1 hc1
      rcases ih (i + 1) (by omega) with ⟨heq, hall⟩ | ⟨k, c, hk, hkc, hcu, hmin, heq⟩
      · refine Or.inl ⟨heq, ?_⟩
        intro k hk
        by_cases hk1 : i + 1 ≤ k.val
        · exact hall k hk1
        · exact hstep k hk hk1
      · refine Or.inr ⟨k, c, by omega, hkc, hcu, ?_, heq⟩
        intro j hj hjk
        by_cases hj1 : i + 1 ≤ j.val
        · exact hmin j hj1 hjk
        · exact hstep j hj hj1
    unfold Server.remove_client_loop
    simp only [hlt, dif_pos]
    cases hc : clients ⟨i, hlt⟩ with
    | none =>
      simp only
      exact next (fun c1 h1 => by rw [hc] at h1; cases h1)
    | some c =>
      simp only
      by_cases hu : c.uid = uid
      · simp only [hu, if_true]
        refine Or.inr ⟨⟨i, hlt⟩, c, le_refl _, hc, hu, ?_, rfl⟩
        intro j hj hjk
        exact absurd hjk (by simp only [Fin.lt_def]; omega)
      · simp only [hu, if_false]
        exact next (fun c1 h1 => by
          rw [hc] at h1
          simp only [Option.some.injEq] at h1
          rw [← h1]
          exact hu)

theorem Server.remove_client_search (clients : Server.Registry) (uid : Int) :
    (Server.remove_client clients uid = clients ∧
      ∀ (k : Fin Server.MAX_CLIENTS) c, clients k = some c → c.uid ≠ uid) ∨
    (∃ (k : Fin Server.MAX_CLIENTS) (c : Server.client_t),
      clients k = some c ∧ c.uid = uid ∧
      (∀ j : Fin Server.MAX_CLIENTS, j < k → ∀ c1, clients j = some c1 → c1.uid ≠ uid) ∧
      Server.remove_client clients uid = Function.update clients k none) := by
  rcases Server.remove_client_loop_search uid clients Server.MAX_CLIENTS 0 (by simp) with
    ⟨heq, hall⟩ | ⟨k, c, _, hkc, hcu, hmin, heq⟩
  · exact Or.inl ⟨heq, fun k c hc => hall k (Nat.zero_le _) c hc⟩
  · exact Or.inr ⟨k, c, hkc, hcu, fun j hjk => hmin j (Nat.zero_le _) hjk, heq⟩

theorem Server.add_client_search (clients : Server.Registry) (cl : Server.client_t) :
    (Server.add_client clients cl = clients ∧
      ∀ k : Fin Server.MAX_CLIENTS, clients k ≠ none) ∨
    (∃ k : Fin Server.MAX_CLIENTS, clients k = none ∧
      Server.add_client clients cl = Function.update clients k (some cl)) := by
  rcases Server.add_client_loop_search cl clients Server.MAX_CLIENTS 0 (by simp) with
    ⟨heq, hall⟩ | ⟨k, _, hkfree, _, heq⟩
  · exact Or.inl ⟨heq, fun k => hall k (Nat.zero_le _)⟩
  · exact Or.inr ⟨k, hkfree, heq⟩

/-- An entry left by `remove_client` was there before. -/
theorem Server.remove_client_sub (clients : Server.Registry) (uid : Int)
    (i : Fin Server.MAX_CLIENTS) (c : Server.client_t)
    (h : Server.remove_client clients uid i = some c) : clients i = some c := by
  rcases Server.remove_client_search clients uid with ⟨heq, _⟩ | ⟨k, _, _, _, _, heq⟩
  · rwa [heq] at h
  · rw [heq] at h
    by_cases hik : i = k
    · subst hik
      simp at h
    · simpa [Function.update, hik] using h

/-- C21: `remove_client(uid)` clears the occupied slot of lowest index whose
entry has that uid and leaves every other slot as it was; without such an entry
the registry is left as it was. When no two occupied slots share a uid, no
entry has the uid afterwards, and removing the uid of a client just added with
a fresh uid gives the registry back. -/
theorem remove_client_first_match (clients : Server.Registry) (uid : Int)
    (cl : Server.client_t) :
    (∀ (k : Fin Server.MAX_CLIENTS) c, clients k = some c → c.uid = uid →
      (∀ j : Fin Server.MAX_CLIENTS, j < k → ∀ c1, clients j = some c1 → c1.uid ≠ uid) →
      Server.remove_client clients uid k = none ∧
      ∀ j : Fin Server.MAX_CLIENTS, j ≠ k → Server.remove_client clients uid j = clients j) ∧
    ((∀ (k : Fin Server.MAX_CLIENTS) c, clients k = some c → c.uid ≠ uid) →
      Server.remove_client clients uid = clients) ∧
    (Server.distinct_uids clients →
      ∀ (k : Fin Server.MAX_CLIENTS) c, Server.remove_client clients uid k = some c →
        c.uid ≠ uid) ∧
    ((∀ (k : Fin Server.MAX_CLIENTS) c, clients k = some c → c.uid ≠ cl.uid) →
      Server.remove_client (Server.add_client clients cl) cl.uid = clients) := by
  refine ⟨?_, ?_, ?_, ?_⟩
  · intro k c hkc hcu hmin
    rcases Server.remove_client_search clients uid with ⟨_, hall⟩ | ⟨k1, c1, hk1, hc1, hmin1, heq⟩
    · exact absurd hcu (hall k c hkc)
    · have hk : k1 = k := by
        apply Fin.ext
        by_contra hne
        rcases Nat.lt_or_gt_of_ne hne with h | h
        · exact hmin k1 (Fin.lt_def.mpr h) c1 hk1 hc1
        · exact hmin1 k (Fin.lt_def.mpr h) c hkc hcu
      subst hk
      rw [heq]
      exact ⟨by simp, fun j hj => by simp [Function.update, hj]⟩
  · intro hnone
    rcases Server.remove_client_search clients uid with ⟨heq, _⟩ | ⟨k1, c1, hk1, hc1, _, _⟩
    · exact heq
    · exact absurd hc1 (hnone k1 c1 hk1)
  · intro hd k c hkc hcu
    rcases Server.remove_client_search clients uid with ⟨heq, hall⟩ | ⟨k1, c1, hk1, hc1, _, heq⟩
    · rw [heq] at hkc
      exact hall k c hkc hcu
    · rw [heq] at hkc
      by_cases hkk : k = k1
      · subst hkk
        simp at hkc
      · have hkc' : clients k = some c := by simpa [Function.update, hkk] using hkc
        exact hkk (hd k k1 c c1 hkc' hk1 (hcu.trans hc1.symm))
  · intro hfresh
    rcases Server.add_client_search clients cl with ⟨hadd, _⟩ | ⟨k, hkfree, hadd⟩
    · rw [hadd]
      rcases Server.remove_client_search clients cl.uid with
        ⟨heq, _⟩ | ⟨k1, c1, hk1, hc1, _, _⟩
      · exact heq
      · exact absurd hc1 (hfresh k1 c1 hk1)
    · rw [hadd]
      rcases Server.remove_client_search (Function.update clients k (some cl)) cl.uid with
        ⟨_, hall⟩ | ⟨k1, c1, hk1, hc1, _, heq⟩
      · exact absurd rfl (hall k cl (by simp))
      · have hkk : k1 = k := by
          by_contra hne
          have : clients k1 = some c1 := by simpa [Function.update, hne] using hk1
          exact hfresh k1 c1 this hc1
        subst hkk
        rw [heq, Function.update_idem]
        have := Function.update_eq_self k1 clients
        rwa [hkfree] at this

/-- C21 at a registry whose slots 0 and 2 hold the uids 10 and 12. -/
theorem remove_client_first_match_witness :
    Server.remove_client
        (fun i => if i.val = 0 ∨ i.val = 2 then some ⟨0, 4, 10 + i.val⟩ else none) 12
        ⟨2, by decide⟩ = none ∧
    Server.remove_client
        (Server.add_client
          (fun i => if i.val = 0 ∨ i.val = 2 then some ⟨0, 4, 10 + i.val⟩ else none)
          ⟨0, 5, 13⟩) 13 =
      (fun i => if i.val = 0 ∨ i.val = 2 then some ⟨0, 4, 10 + i.val⟩ else none) :=
  have h := remove_client_first_match
    (fun i => if i.val = 0 ∨ i.val = 2 then some ⟨0, 4, 10 + i.val⟩ else none) 12 ⟨0, 5, 13⟩
  ⟨(h.1 ⟨2, by decide⟩ ⟨0, 4, 12⟩ (by decide) rfl (by decide)).1, h.2.2.2 (by decide)⟩

theorem Server.registry_invariant_step (s s1 : Server.ServerState)
    (st : Server.RegistryStep) (hstep : Server.registry_step s st = some s1)
    (hinv : Server.registry_invariant s) : Server.registry_invariant s1 := by
  obtain ⟨hd, hb, hp, ha⟩ := hinv
  cases st with
  | accept address sockfd =>
    simp only [Server.registry_step, Server.accept_client] at hstep
    split_ifs at hstep with hmax
    simp only [Option.some.injEq] at hstep
    subst hstep
    have hassigned : (s.uid_counter :: s.assigned).Pairwise (fun later earlier => earlier < later) ∧
        ∀ u ∈ s.uid_counter :: s.assigned, u < s.uid_counter + 1 := by
      refine ⟨List.pairwise_cons.mpr ⟨ha, hp⟩, ?_⟩
      intro u hu
      rcases List.mem_cons.mp hu with h | h
      · omega
      · have := ha u h
        omega
    rcases Server.add_client_search s.clients ⟨address, sockfd, s.uid_counter⟩ with
      ⟨hadd, _⟩ | ⟨k, hkfree, hadd⟩
    · refine ⟨?_, ?_, hassigned.1, hassigned.2⟩
      · simp only [hadd]
        exact hd
      · intro i c hc
        simp only [hadd] at hc
        have := hb i c hc
        simp only
        omega
    · have hget : ∀ (i : Fin Server.MAX_CLIENTS) c,
          Function.update s.clients k (some ⟨address, sockfd, s.uid_counter⟩) i = some c →
          (i = k ∧ c.uid = s.uid_counter) ∨ (i ≠ k ∧ s.clients i = some c) := by
        intro i c hc
        by_cases hik : i = k
        · subst hik
          simp only [Function.update_same, Option.some.injEq] at hc
          exact Or.inl ⟨rfl, by rw [← hc]⟩
        · exact Or.inr ⟨hik, by simpa [Function.update, hik] using hc⟩
      refine ⟨?_, ?_, hassigned.1, hassigned.2⟩
      · intro i j ci cj hi hj hu
        simp only [hadd] at hi hj
        rcases hget i ci hi with ⟨hik, hci⟩ | ⟨hik, hci⟩ <;>
          rcases hget j cj hj with ⟨hjk, hcj⟩ | ⟨hjk, hcj⟩
        · rw [hik, hjk]
        · have := hb j cj hcj
          omega
        · have := hb i ci hci
          omega
        · exact hd i j ci cj hci hcj hu
      · intro i c hc
        simp only [hadd] at hc
        simp only
        rcases hget i c hc with ⟨_, hcu⟩ | ⟨_, hci⟩
        · omega
        · have := hb i c hci
          omega
  | remove uid =>
    simp only [Server.registry_step, Option.some.injEq] at hstep
    subst hstep
    refine ⟨?_, ?_, hp, ha⟩
    · intro i j ci cj hi hj hu
      exact hd i j ci cj (Server.remove_client_sub _ _ _ _ hi)
        (Server.remove_client_sub _ _ _ _ hj) hu
    · intro i c hc
      exact hb i c (Server.remove_client_sub _ _ _ _ hc)

theorem Server.registry_invariant_run (steps : List Server.RegistryStep) :
    ∀ (s s1 : Server.ServerState), Server.run_steps steps s = some s1 →
      Server.registry_invariant s → Server.registry_invariant s1 := by
  induction steps with
  | nil =>
    intro s s1 h hinv
    simp only [Server.run_steps, Option.some.injEq] at h
    rw [← h]
    exact hinv
  | cons st rest ih =>
    intro s s1 h hinv
    unfold Server.run_steps at h
    cases hst : Server.registry_step s st with
    | none => simp [hst] at h
    | some s2 =>
      rw [hst] at h
      exact ih s2 s1 h (Server.registry_invariant_step s s2 st hst hinv)

theorem Server.registry_invariant_initial :
    Server.registry_invariant Server.initial_state := by
  refine ⟨?_, ?_, ?_, ?_⟩
  · intro i j ci cj hi
    simp [Server.initial_state] at hi
  · intro i c hi
    simp [Server.initial_state] at hi
  · simp [Server.initial_state]
  · simp [Server.initial_state]

/-- C22: in every state reached from the empty registry with `uid_counter = 10`
by accepted connections and calls of `remove_client`, no two occupied slots
hold the same uid, every uid in the registry is below `uid_counter`, and the
uids were assigned in strictly increasing order. -/
theorem registry_invariant_reachable (steps : List Server.RegistryStep)
    (s : Server.ServerState) (h : Server.run_steps steps Server.initial_state = some s) :
    Server.distinct_uids s.clients ∧
    (∀ (i : Fin Server.MAX_CLIENTS) c, s.clients i = some c → c.uid < s.uid_counter) ∧
    s.assigned.Pairwise (fun later earlier => earlier < later) := by
  have hinv := Server.registry_invariant_run steps _ s h Server.registry_invariant_initial
  exact ⟨hinv.1, hinv.2.1, hinv.2.2.1⟩

/-- C22 after three accepted connections, the first session having ended
before the third connection. -/
theorem registry_invariant_reachable_witness :
    ∃ s : Server.ServerState,
      Server.run_steps [.accept 1 4, .accept 2 5, .remove 10, .accept 3 6]
        Server.initial_state = some s ∧
      s.uid_counter = 13 ∧ s.assigned = [12, 11, 10] ∧
      s.clients ⟨0, by decide⟩ = some ⟨3, 6, 12⟩ ∧
      s.clients ⟨1, by decide⟩ = some ⟨2, 5, 11⟩ ∧
      Server.distinct_uids s.clients :=
  have h : ∃ s : Server.ServerState,
      Server.run_steps [.accept 1 4, .accept 2 5, .remove 10, .accept 3 6]
        Server.initial_state = some s ∧
      s.uid_counter = 13 ∧ s.assigned = [12, 11, 10] ∧
      s.clients ⟨0, by decide⟩ = some ⟨3, 6, 12⟩ ∧
      s.clients ⟨1, by decide⟩ = some ⟨2, 5, 11⟩ :=
    ⟨_, rfl, by decide, by decide, by decide, by decide⟩
  h.elim fun s hs =>
    ⟨s, hs.1, hs.2.1, hs.2.2.1, hs.2.2.2.1, hs.2.2.2.2,
      (registry_invariant_reachable _ s hs.1).1⟩

/-! ## One operation per session, the mutex, the path message -/

theorem Server.dispatch_handler_or_invalid (opz : Char) (p : List Char) :
    Server.dispatch opz p = .handle_write p ∨ Server.dispatch opz p = .handle_read p ∨
    Server.dispatch opz p = .handle_list p ∨ Server.dispatch opz p = .invalid_operation opz := by
  unfold Server.dispatch
  split_ifs <;> simp

/-- The shapes the events of a session can take. -/
theorem Server.handle_client_shapes (e : Server.SessionEnv) :
    Server.handle_client e = Server.cleanup e ∨
    Server.handle_client e = Server.Event.send_byte 'T' :: Server.cleanup e ∨
    (e.ft_root_directory = some [] ∧
      Server.handle_client e = [Server.Event.send_byte 'T', Server.Event.undefined_read]) ∨
    (∃ ev, (∃ opz p, ev = Server.dispatch opz p) ∧
      Server.handle_client e =
        [Server.Event.send_byte 'T', Server.Event.mutex_lock, ev, Server.Event.mutex_unlock] ++
          Server.cleanup e) := by
  unfold Server.handle_client
  by_cases hop : e.op_recv.count 1 ≤ 0
  · simp [hop]
  · simp only [hop, if_false]
    cases hrp : Server.receive_path e.path_recv with
    | none => simp
    | some buf =>
      simp only
      by_cases hs : e.confirm_send ≤ 0
      · simp [hs]
      · simp only [hs, if_false]
        cases hc : Server.construct_full_path e.ft_root_directory (some (c_string buf)) with
        | null => simp
        | out_of_bounds =>
          have hroot : e.ft_root_directory = some [] := by
            unfold Server.construct_full_path at hc
            cases hr : e.ft_root_directory with
            | none => simp [hr] at hc
            | some root =>
              rw [hr] at hc
              simp only at hc
              cases hl : root.getLast? with
              | none => rw [List.getLast?_eq_none_iff.mp hl]
              | some last => simp [hl] at hc
          simp [hroot]
        | path fullpath =>
          refine Or.inr (Or.inr (Or.inr
            ⟨Server.dispatch ((e.op_recv.data 1).headD NUL) fullpath,
              ⟨(e.op_recv.data 1).headD NUL, fullpath, rfl⟩, ?_⟩))
          simp

/-- C23: in every session at most one handler is called, at most once; when
the operation byte, the path and the confirmation succeed and the path resolves
against the root, the session is the confirmation, the call, between lock and
unlock, of the handler selected by the operation byte on
`construct_full_path(root, path)`, then the cleanup; every session ends with
the socket closed and `remove_client` called for its uid, unless it went
through the out-of-bounds read that an empty root causes. -/
theorem handle_client_one_operation (e : Server.SessionEnv) :
    ((Server.handle_client e).filter Server.Event.is_handler).length ≤ 1 ∧
    (∀ opz buf fullpath, 0 < e.op_recv.count 1 → (e.op_recv.data 1).headD NUL = opz →
      Server.receive_path e.path_recv = some buf → 0 < e.confirm_send →
      Server.construct_full_path e.ft_root_directory (some (c_string buf)) = .path fullpath →
      (opz = 'w' → Server.handle_client e =
        [.send_byte 'T', .mutex_lock, .handle_write fullpath, .mutex_unlock,
          .close_socket, .remove_client e.uid]) ∧
      (opz = 'r' → Server.handle_client e =
        [.send_byte 'T', .mutex_lock, .handle_read fullpath, .mutex_unlock,
          .close_socket, .remove_client e.uid]) ∧
      (opz = 'l' → Server.handle_client e =
        [.send_byte 'T', .mutex_lock, .handle_list fullpath, .mutex_unlock,
          .close_socket, .remove_client e.uid])) ∧
    ((∃ before, Server.handle_client e =
        before ++ [Server.Event.close_socket, Server.Event.remove_client e.uid]) ∨
      (e.ft_root_directory = some [] ∧
        Server.handle_client e =
          [Server.Event.send_byte 'T', Server.Event.undefined_read])) := by
  refine ⟨?_, ?_, ?_⟩
  · rcases Server.handle_client_shapes e with h | h | ⟨_, h⟩ | ⟨ev, ⟨opz, p, hev⟩, h⟩
    · simp [h, Server.cleanup, Server.Event.is_handler]
    · simp [h, Server.cleanup, Server.Event.is_handler]
    · simp [h, Server.Event.is_handler]
    · rw [h]
      simp only [Server.cleanup, List.cons_append, List.nil_append]
      rw [List.filter_cons, List.filter_cons, List.filter_cons, List.filter_cons,
        List.filter_cons, List.filter_cons]
      simp only [Server.Event.is_handler, Bool.false_eq_true, if_false, List.filter_nil]
      split_ifs <;> simp
  · intro opz buf fullpath hop hdata hbuf hsend hfull
    have hop' : ¬ e.op_recv.count 1 ≤ 0 := not_le.mpr hop
    have hs : ¬ e.confirm_send ≤ 0 := not_le.mpr hsend
    have htrace : Server.handle_client e =
        [.send_byte 'T', .mutex_lock, Server.dispatch opz fullpath, .mutex_unlock,
          .close_socket, .remove_client e.uid] := by
      unfold Server.handle_client
      simp only [hop', if_false, hbuf, hs, hfull, hdata, Server.cleanup]
      rfl
    refine ⟨?_, ?_, ?_⟩
    · intro h
      rw [htrace, h]
      rfl
    · intro h
      rw [htrace, h]
      rfl
    · intro h
      rw [htrace, h]
      rfl
  · rcases Server.handle_client_shapes e with h | h | h | ⟨ev, _, h⟩
    · exact Or.inl ⟨[], by rw [h]; rfl⟩
    · exact Or.inl ⟨[.send_byte 'T'], by rw [h]; rfl⟩
    · exact Or.inr h
    · exact Or.inl ⟨[.send_byte 'T', .mutex_lock, ev, .mutex_unlock], by rw [h]; rfl⟩

/-- C23 at a read session on the root `/srv` and the path `a`. -/
theorem handle_client_one_operation_witness :
    Server.handle_client
        ⟨10, some "/srv".toList, .bytes ['r'], .bytes [NUL, NUL, NUL, NUL, NUL, 'a', NUL], 1⟩ =
      [.send_byte 'T', .mutex_lock, .handle_read "/srv/a".toList, .mutex_unlock,
        .close_socket, .remove_client 10] :=
  ((handle_client_one_operation
    ⟨10, some "/srv".toList, .bytes ['r'], .bytes [NUL, NUL, NUL, NUL, NUL, 'a', NUL], 1⟩).2.1
    'r' ['a', NUL, NUL] "/srv/a".toList (by decide) (by decide) (by decide) (by decide)
    (by decide)).2.1 rfl

/-- C24, as stated, fails: in a write session the handler is called between the
lock and the unlock of `clients_mutex` made by `handle_client` itself. -/
theorem handle_client_handler_under_lock :
    Server.handle_client
        ⟨10, some "/srv".toList, .bytes ['w'], .bytes [NUL, NUL, NUL, NUL, NUL, 'a', NUL], 1⟩ =
      [.send_byte 'T', .mutex_lock, .handle_write "/srv/a".toList, .mutex_unlock,
        .close_socket, .remove_client 10] ∧
    Server.handlers_outside_lock false
        (Server.handle_client
          ⟨10, some "/srv".toList, .bytes ['w'],
            .bytes [NUL, NUL, NUL, NUL, NUL, 'a', NUL], 1⟩) = false := by
  decide

/-- C24, amended: in every session, whenever a handler is called it is called
while `clients_mutex` is held, between the lock and the unlock that
`handle_client` places around the dispatch, so that the transfers of different
sessions exclude each other; `remove_client`, which takes the mutex for the
mutation of the registry, is called once that lock is released. -/
theorem handle_client_handlers_inside_lock (e : Server.SessionEnv) :
    Server.handlers_inside_lock false (Server.handle_client e) = true ∧
    ∀ ev ∈ Server.handle_client e, ev.is_handler = true →
      ∃ after, Server.handle_client e =
        [Server.Event.send_byte 'T', Server.Event.mutex_lock, ev, Server.Event.mutex_unlock] ++
          after := by
  rcases Server.handle_client_shapes e with h | h | ⟨_, h⟩ | ⟨ev, ⟨opz, p, hev⟩, h⟩
  · rw [h]
    exact ⟨by simp [Server.cleanup, Server.handlers_inside_lock, Server.Event.is_handler],
      fun ev hev hh => by simp [Server.cleanup] at hev; rcases hev with rfl | rfl <;> cases hh⟩
  · rw [h]
    exact ⟨by simp [Server.cleanup, Server.handlers_inside_lock, Server.Event.is_handler],
      fun ev hev hh => by
        simp [Server.cleanup] at hev
        rcases hev with rfl | rfl | rfl <;> cases hh⟩
  · rw [h]
    exact ⟨by simp [Server.handlers_inside_lock, Server.Event.is_handler],
      fun ev hev hh => by simp at hev; rcases hev with rfl | rfl <;> cases hh⟩
  · rw [h]
    constructor
    · rcases Server.dispatch_handler_or_invalid opz p with hd | hd | hd | hd <;>
        · rw [hev, hd]
          simp [Server.cleanup, Server.handlers_inside_lock, Server.Event.is_handler]
    · intro ev1 hmem hh
      simp only [Server.cleanup, List.cons_append, List.nil_append, List.mem_cons,
        List.mem_singleton, List.not_mem_nil, or_false] at hmem
      rcases hmem with rfl | rfl | rfl | rfl | rfl | rfl
      · cases hh
      · cases hh
      · exact ⟨_, rfl⟩
      · cases hh
      · cases hh
      · cases hh

theorem c_string_append_nul (l r : List Char) (h : NUL ∉ l) :
    c_string (l ++ NUL :: r) = l := by
  induction l with
  | nil => simp [c_string]
  | cons c cs ih =>
    have hc : c ≠ NUL := fun e => h (by simp [e])
    have hcs : NUL ∉ cs := fun m => h (List.mem_cons_of_mem _ m)
    simp [c_string, hc, ih hcs]

/-- The string left of the client message once its leading zero bytes are
removed. -/
theorem c_string_dropWhile_message (path : List Char) (hnul : NUL ∉ path) :
    c_string ((List.replicate 5 NUL ++ path ++ [NUL]).dropWhile (fun c => decide (c = NUL))) =
      path := by
  have hpad : ∀ a ∈ List.replicate 5 NUL, (fun c => decide (c = NUL)) a = true := by
    intro a ha
    simp [List.eq_of_mem_replicate ha]
  rw [List.append_assoc, List.dropWhile_append_of_pos hpad]
  cases path with
  | nil => simp [c_string]
  | cons c cs =>
    have hc : c ≠ NUL := fun e => hnul (by simp [e])
    have hd : (c :: cs ++ [NUL]).dropWhile (fun c => decide (c = NUL)) = c :: cs ++ [NUL] := by
      simp [hc]
    rw [hd]
    exact c_string_append_nul (c :: cs) [] hnul

/-- C25: for every path of at most 1017 bytes without zero byte, the empty path
included, the message `send_filepath` hands to `send`, received whole by the one
`recv` of `receive_path`, gives back a string equal to the path. -/
theorem path_message_round_trip (path : List Char) (hnul : NUL ∉ path)
    (hlen : path.length ≤ 1017) :
    ∃ msg buf, Client.send_filepath path = some msg ∧
      Server.receive_path (.bytes msg) = some buf ∧ c_string buf = path := by
  have hfit : path.length + 6 ≤ BUFFER_SIZE := by
    simp only [BUFFER_SIZE]
    omega
  have hmsg1 : 1 ≤ (List.replicate 5 NUL ++ path ++ [NUL]).length := by simp
  have hmsg2 : (List.replicate 5 NUL ++ path ++ [NUL]).length ≤ BUFFER_SIZE - 1 := by
    simp only [BUFFER_SIZE, List.length_append, List.length_replicate, List.length_cons,
      List.length_nil]
    omega
  refine ⟨_, _, Client.send_filepath_eq path hnul hfit,
    Server.receive_path_eq _ hmsg1 hmsg2, ?_⟩
  rw [c_string_strncpy]
  exact c_string_dropWhile_message path hnul

/-- C25 at the path `sub/f.txt` and at the empty path. -/
theorem path_message_round_trip_witness :
    (∃ msg buf, Client.send_filepath "sub/f.txt".toList = some msg ∧
      Server.receive_path (.bytes msg) = some buf ∧ c_string buf = "sub/f.txt".toList) ∧
    (∃ msg buf, Client.send_filepath [] = some msg ∧
      Server.receive_path (.bytes msg) = some buf ∧ c_string buf = []) :=
  ⟨path_message_round_trip "sub/f.txt".toList (by decide) (by decide),
    path_message_round_trip [] (by decide) (by decide)⟩

end MyFT
